import Mathlib

/-!
Verification of the code-identifier matching and transcription-formatting
engine of the Niwa voice desktop agent.

The Python sources `src/services/code_identifier_service.py` and
`src/services/transcription_formatter_service.py` are shallowly embedded
here.  Python strings are modelled as `List Char` with ASCII semantics
(lowercasing, character classes and word boundaries are modelled for the
ASCII range, which is the range the services are written for); Python
floats are modelled as exact rationals.  Regular-expression scanning is
modelled by hand-rolled deterministic matchers that reproduce
left-to-right, non-overlapping `re.finditer` semantics for the concrete
patterns compiled by the services.
-/

namespace Niwa

/-- Python strings, modelled as lists of characters. -/
abbrev PyStr := List Char

/-- ASCII lowercase table, modelling `str.lower()` for the ASCII range. -/
def lowerTable : List (Char × Char) :=
  [('A','a'),('B','b'),('C','c'),('D','d'),('E','e'),('F','f'),('G','g'),
   ('H','h'),('I','i'),('J','j'),('K','k'),('L','l'),('M','m'),('N','n'),
   ('O','o'),('P','p'),('Q','q'),('R','r'),('S','s'),('T','t'),('U','u'),
   ('V','v'),('W','w'),('X','x'),('Y','y'),('Z','z')]

/-- Lowercase one character (ASCII model of Python lowercasing). -/
def pyLowerChar (c : Char) : Char :=
  match lowerTable.find? (fun p => p.1 = c) with
  | some p => p.2
  | none => c

/-- Model of `s.lower()`. -/
def pyLower (s : PyStr) : PyStr := s.map pyLowerChar

/-- Model of Python `str.isspace` for single characters (the ASCII whitespace
set used by `str.split()` and `\s`). -/
def pyIsSpace (c : Char) : Bool :=
  c = ' ' || c = '\t' || c = '\n' || c = '\r' || c = Char.ofNat 11 || c = Char.ofNat 12

/-- Word characters of the regex `\w` class (ASCII): letters, digits, `_`. -/
def isWordChar (c : Char) : Bool := c.isAlphanum || c = '_'

/-- Model of `s.replace("::", "")`: remove non-overlapping occurrences of
`::` scanning left to right. -/
def removeDoubleColon : PyStr → PyStr
  | [] => []
  | [c] => [c]
  | c :: d :: rest =>
    if c = ':' && d = ':' then removeDoubleColon rest
    else c :: removeDoubleColon (d :: rest)

/-- `CodeIdentifierService.normalize_identifier`: lowercase, drop `_`, `-`,
`.`, `::`, and drop all whitespace (`''.join(s.split())`). -/
def normalizeIdentifier (word : PyStr) : PyStr :=
  if word = [] then []
  else
    let n1 := pyLower word
    let n2 := n1.filter (fun c => c ≠ '_')
    let n3 := n2.filter (fun c => c ≠ '-')
    let n4 := n3.filter (fun c => c ≠ '.')
    let n5 := removeDoubleColon n4
    n5.filter (fun c => !(pyIsSpace c))

/-- C9 counterexample input: the string consisting of colon, space, colon. -/
def c9Input : PyStr := [':', ' ', ':']

/-! Model of `difflib.SequenceMatcher(None, a, b).ratio()`.  The matcher is
constructed with `isjunk = None`, so the junk set is empty and the two
junk-extension loops of `find_longest_match` never fire; the autojunk
popularity filter (active only for `len b ≥ 200`) is modelled in `b2jGet`. -/
/-- Ascending positions of character `c` in `b` (the `b2j` chain). -/
def positionsOf (b : PyStr) (c : Char) : List Nat :=
  (List.range b.length).filter (fun j => b.getD j ' ' = c)

/-- Lookup in the `b2j` map, with the autojunk popularity filter. -/
def b2jGet (b : PyStr) (c : Char) : List Nat :=
  let idxs := positionsOf b c
  if 200 ≤ b.length ∧ b.length / 100 + 1 < idxs.length then [] else idxs

/-- Lookup in a `j2len` row map, defaulting to 0. -/
def j2lenGet (m : List (Nat × Nat)) (j : Nat) : Nat :=
  match m.find? (fun p => p.1 = j) with
  | some p => p.2
  | none => 0

/-- One row of `find_longest_match`: fold over the in-window positions of
`a i` in `b`, building the fresh `j2len` map and updating the best triple
`(besti, bestj, bestsize)` on strictly longer runs. -/
def flmRow (i : Nat) (j2len : List (Nat × Nat)) :
    List Nat → List (Nat × Nat) → Nat × Nat × Nat → List (Nat × Nat) × (Nat × Nat × Nat)
  | [], newm, best => (newm, best)
  | j :: js, newm, best =>
    let k := (if j = 0 then 0 else j2lenGet j2len (j - 1)) + 1
    let best2 := if best.2.2 < k then (i + 1 - k, j + 1 - k, k) else best
    flmRow i j2len js (newm ++ [(j, k)]) best2

/-- All rows `i ∈ [alo, ahi)` of `find_longest_match`. -/
def flmRows (a b : PyStr) (blo bhi : Nat) :
    Nat → Nat → List (Nat × Nat) → Nat × Nat × Nat → Nat × Nat × Nat
  | 0, _, _, best => best
  | n + 1, i, j2len, best =>
    let js := (b2jGet b (a.getD i (Char.ofNat 0))).filter (fun j => blo ≤ j ∧ j < bhi)
    let pr := flmRow i j2len js [] best
    flmRows a b blo bhi n (i + 1) pr.1 pr.2

/-- Left extension loop of `find_longest_match` (empty junk set). -/
def extendLeft (a b : PyStr) (alo blo : Nat) : Nat → Nat × Nat × Nat → Nat × Nat × Nat
  | 0, best => best
  | f + 1, (bi, bj, bs) =>
    if alo < bi ∧ blo < bj ∧ a.getD (bi - 1) (Char.ofNat 0) = b.getD (bj - 1) (Char.ofNat 1)
    then extendLeft a b alo blo f (bi - 1, bj - 1, bs + 1)
    else (bi, bj, bs)

/-- Right extension loop of `find_longest_match` (empty junk set). -/
def extendRight (a b : PyStr) (ahi bhi : Nat) : Nat → Nat × Nat × Nat → Nat × Nat × Nat
  | 0, best => best
  | f + 1, (bi, bj, bs) =>
    if bi + bs < ahi ∧ bj + bs < bhi ∧
        a.getD (bi + bs) (Char.ofNat 0) = b.getD (bj + bs) (Char.ofNat 1)
    then extendRight a b ahi bhi f (bi, bj, bs + 1)
    else (bi, bj, bs)

/-- `SequenceMatcher.find_longest_match` on the window `[alo,ahi) × [blo,bhi)`. -/
def findLongestMatch (a b : PyStr) (alo ahi blo bhi : Nat) : Nat × Nat × Nat :=
  let best := flmRows a b blo bhi (ahi - alo) alo [] (alo, blo, 0)
  let best := extendLeft a b alo blo (a.length + b.length + 1) best
  extendRight a b ahi bhi (a.length + b.length + 1) best

/-- Total size of all matching blocks (the recursion of
`get_matching_blocks`, summing only the sizes).  `fuel` bounds the recursion
depth; `a.length + b.length + 1` always suffices. -/
def matchTotalAux (a b : PyStr) : Nat → Nat → Nat → Nat → Nat → Nat
  | 0, _, _, _, _ => 0
  | fuel + 1, alo, ahi, blo, bhi =>
    let m := findLongestMatch a b alo ahi blo bhi
    if m.2.2 = 0 then 0
    else
      m.2.2
        + (if alo < m.1 ∧ blo < m.2.1 then matchTotalAux a b fuel alo m.1 blo m.2.1 else 0)
        + (if m.1 + m.2.2 < ahi ∧ m.2.1 + m.2.2 < bhi then
            matchTotalAux a b fuel (m.1 + m.2.2) ahi (m.2.1 + m.2.2) bhi else 0)

/-- Sum of matching-block sizes for the whole strings. -/
def seqMatcherTotal (a b : PyStr) : Nat :=
  matchTotalAux a b (a.length + b.length + 1) 0 a.length 0 b.length

/-- Model of `difflib.SequenceMatcher(None, a, b).ratio()` as an exact
rational: `2 * matches / (len a + len b)`, and 1 on two empty strings.
(`mkRat n d` is the rational `n / d`; it is used throughout instead of `/`
so that scores evaluate by kernel reduction.) -/
def ratioQ (a b : PyStr) : ℚ :=
  if a.length + b.length = 0 then 1
  else mkRat (2 * seqMatcherTotal a b) (a.length + b.length)

/-- Model of Python `str.split()`: split on whitespace runs, dropping empties. -/
def pySplit (s : PyStr) : List PyStr :=
  (s.splitOnP pyIsSpace).filter (fun w => w ≠ [])

/-- Model of the Python substring test `sub in s`. -/
def isSubstring (sub : PyStr) : PyStr → Bool
  | [] => sub.isPrefixOf ([] : PyStr)
  | c :: rest => sub.isPrefixOf (c :: rest) || isSubstring sub rest

/-- The result record of `CodeIdentifierService.match_identifier`. -/
structure IdentifierMatch where
  identifier : PyStr
  confidence : ℚ
  matchType : PyStr
  deriving DecidableEq

/-- The per-identifier fuzzy score of `match_identifier`:
`min(1, ratio + b1 + b2 + b3)` where `ratio = 2*M/L` is the similarity ratio
(`L` the total normalized length, `M` the matching-block total), `b1` is the
prefix bonus (`0.2` when the normalized identifier starts with the normalized
phrase, else `0.1` when the reverse holds), `b2 = 0.1` on equal normalized
lengths, and `b3 = 0.15` when the phrase has several words all contained in
the lowercased identifier.  The sum is formed over the common denominator
`20*L` (bonuses `0.2/0.1/0.15` are `4/20`, `2/20`, `3/20`), so the value is
the exact rational of the source formula; when `L = 0` the ratio is 1 and
clamping gives 1. -/
def clampedFuzzyScore (spokenText spokenNorm idf : PyStr) : ℚ :=
  let idn := normalizeIdentifier idf
  let L := spokenNorm.length + idn.length
  if L = 0 then 1
  else
    let M := seqMatcherTotal spokenNorm idn
    let b1 : Nat := if spokenNorm.isPrefixOf idn then 4
                    else if idn.isPrefixOf spokenNorm then 2
                    else 0
    let b2 : Nat := if spokenNorm.length = idn.length then 2 else 0
    let spokenWords := pySplit (pyLower spokenText)
    let b3 : Nat := if 1 < spokenWords.length ∧
                        spokenWords.all (fun w => isSubstring w (pyLower idf))
                    then 3 else 0
    mkRat (min (20 * L) (40 * M + (b1 + b2 + b3) * L)) (20 * L)

/-- The identifier loop of `match_identifier`: exact matches short-circuit,
otherwise the best fuzzy score is tracked with a strict `>` comparison, and
the final check requires a truthy best (non-`None`, non-empty) reaching the
threshold. -/
def matchLoop (spokenText spokenNorm : PyStr) (threshold : ℚ) :
    List PyStr → Option PyStr → ℚ → Option IdentifierMatch
  | [], best, bestScore =>
    match best with
    | some b =>
      if b ≠ [] ∧ threshold ≤ bestScore then some ⟨b, bestScore, "fuzzy".data⟩ else none
    | none => none
  | idf :: rest, best, bestScore =>
    if spokenNorm = normalizeIdentifier idf then some ⟨idf, 1, "exact".data⟩
    else
      let sc := clampedFuzzyScore spokenText spokenNorm idf
      if bestScore < sc then matchLoop spokenText spokenNorm threshold rest (some idf) sc
      else matchLoop spokenText spokenNorm threshold rest best bestScore

/-- `CodeIdentifierService.match_identifier`. -/
def matchIdentifier (spokenText : PyStr) (identifiers : List PyStr) (threshold : ℚ) :
    Option IdentifierMatch :=
  if spokenText = [] ∨ identifiers = [] then none
  else matchLoop spokenText (normalizeIdentifier spokenText) threshold identifiers none 0

/-! The fuzzy branch of `match_identifier` (claim C8). -/
/-- Spec-side first index satisfying a predicate. -/
def firstIdxWith (p : PyStr → Bool) : List PyStr → Option Nat
  | [] => none
  | a :: l => if p a then some 0 else (firstIdxWith p l).map (fun k => k + 1)

/-- The best-tracking loop of `match_identifier`, separated from the final
threshold check: fold over the identifiers keeping `(best_match, best_score)`
and replacing it only on a strictly greater clamped score. -/
def runBest (s sn : PyStr) : List PyStr → Option PyStr × ℚ → Option PyStr × ℚ
  | [], st => st
  | idf :: rest, st =>
    let sc := clampedFuzzyScore s sn idf
    if st.2 < sc then runBest s sn rest (some idf, sc) else runBest s sn rest st

/-- The final `if best_match and best_score >= threshold` check. -/
def finalCheck (t : ℚ) : Option PyStr × ℚ → Option IdentifierMatch
  | (some b, bs) => if b ≠ [] ∧ t ≤ bs then some ⟨b, bs, "fuzzy".data⟩ else none
  | (none, _) => none

/-- Spec-side description of the tracked best: the maximal clamped score `M`
over the list and the earliest identifier attaining it, provided `M` is
positive (with a strict `>` update starting from score 0, a best is tracked
only when some identifier scores strictly above 0). -/
def fuzzyBestSpec (s : PyStr) (ids : List PyStr) : Option (PyStr × ℚ) :=
  let score := clampedFuzzyScore s (normalizeIdentifier s)
  let M := (ids.map score).foldr max 0
  if M ≤ 0 then none
  else
    match firstIdxWith (fun i => decide (score i = M)) ids with
    | some k => some (ids.getD k [], M)
    | none => none

/-! Model of `TranscriptionFormatterService`. -/
/-- Word boundary `\b` at position `p`: the word-ness of the character before
`p` differs from the word-ness of the character at `p` (positions outside the
text count as non-word). -/
def isBoundary (text : PyStr) (p : Nat) : Bool :=
  let before := if p = 0 then false else isWordChar (text.getD (p - 1) ' ')
  let after := if p < text.length then isWordChar (text.getD p ' ') else false
  before != after

/-- Match of the compiled pattern `\b + re.escape(lit) + \b` with
`re.IGNORECASE` at position `p`: both boundaries hold and the text matches
the literal case-insensitively (the length equality is forced by the
lowercased comparison). -/
def formatterMatchAt (text lit : PyStr) (p : Nat) : Option Nat :=
  if isBoundary text p && decide (pyLower ((text.drop p).take lit.length) = pyLower lit)
      && isBoundary text (p + lit.length)
  then some (p + lit.length) else none

/-- `re.finditer` driver: scan positions `0..len` inclusive, left to right,
non-overlapping; after a zero-width match resume at `p+1`, after a match
ending at `e > p` resume at `e`.  `fuel` bounds the loop; `len + 2` always
suffices since the position strictly increases each step. -/
def finditerAux (matchAt : Nat → Option Nat) (len : Nat) : Nat → Nat → List (Nat × Nat)
  | 0, _ => []
  | fuel + 1, p =>
    if len < p then []
    else
      match matchAt p with
      | some e =>
        if e = p then (p, p) :: finditerAux matchAt len fuel (p + 1)
        else (p, e) :: finditerAux matchAt len fuel e
      | none => finditerAux matchAt len fuel (p + 1)

/-- All matches of the ignore-case whole-word literal pattern in `text`. -/
def finditerLit (text lit : PyStr) : List (Nat × Nat) :=
  finditerAux (formatterMatchAt text lit) text.length (text.length + 2) 0

/-- `TranscriptionFormatterService._is_already_formatted`: adjacency to a
backtick or quote, odd delimiter parity before the match, or a URL/path
heuristic on the ±20-character window. -/
def isAlreadyFormatted (text : PyStr) (s e : Nat) : Bool :=
  (decide (0 < s) && decide (text.getD (s - 1) ' ' = '`'))
  || (decide (e < text.length) && decide (text.getD e ' ' = '`'))
  || (decide (0 < s) && decide (text.getD (s - 1) ' ' = '"'))
  || (decide (e < text.length) && decide (text.getD e ' ' = '"'))
  || (decide (0 < s) && decide (text.getD (s - 1) ' ' = '\''))
  || (decide (e < text.length) && decide (text.getD e ' ' = '\''))
  || decide ((text.take s).count '`' % 2 = 1)
  || decide ((text.take s).count '"' % 2 = 1)
  || decide ((text.take s).count '\'' % 2 = 1)
  || (let ctx := (text.take (min text.length (e + 20))).drop (s - 20)
      isSubstring ("://".data) ctx || decide (2 ≤ ctx.count '/') || decide (2 ≤ ctx.count '\\'))

/-- First camel-splitting substitution `([a-z])([A-Z]) -> \1 \2`, scanning
left to right over non-overlapping matches. -/
def camelSub1 : PyStr → PyStr
  | [] => []
  | [c] => [c]
  | a :: b :: rest =>
    if a.isLower && b.isUpper then a :: ' ' :: b :: camelSub1 rest
    else a :: camelSub1 (b :: rest)

/-- Length of the uppercase run at the head of the string. -/
def upperRunLen : PyStr → Nat
  | [] => 0
  | c :: rest => if c.isUpper then upperRunLen rest + 1 else 0

/-- Second substitution `([A-Z]+)([A-Z][a-z]) -> \1 \2`: an uppercase run of
length at least 2 followed by a lowercase letter splits before its last
uppercase letter; scanning continues after the matched lowercase letter. -/
def camelSub2Aux : Nat → PyStr → PyStr
  | 0, s => s
  | fuel + 1, s =>
    if 2 ≤ upperRunLen s ∧ upperRunLen s < s.length ∧
        (s.getD (upperRunLen s) ' ').isLower = true then
      s.take (upperRunLen s - 1) ++ ' ' ::
        ((s.drop (upperRunLen s - 1)).take 2 ++ camelSub2Aux fuel (s.drop (upperRunLen s + 1)))
    else
      match s with
      | [] => []
      | c :: rest => c :: camelSub2Aux fuel rest

/-- Both camel-splitting substitutions. -/
def camelSub2 (s : PyStr) : PyStr := camelSub2Aux s.length s

/-- Deduplicate, comparing lowercased forms, keeping first-seen casing. -/
def dedupByLowerAux : List PyStr → List PyStr → List PyStr
  | [], _ => []
  | f :: rest, seen =>
    if seen.contains (pyLower f) then dedupByLowerAux rest seen
    else f :: dedupByLowerAux rest (pyLower f :: seen)

/-- Deduplicate a list of forms by lowercased value. -/
def dedupByLower (l : List PyStr) : List PyStr := dedupByLowerAux l []

/-- `TranscriptionFormatterService._generate_spoken_forms`. -/
def generateSpokenForms (identifier : PyStr) : List PyStr :=
  let forms0 := [identifier]
  let forms1 := if identifier.contains '_' then
      forms0 ++ [identifier.map (fun c => if c = '_' then ' ' else c),
                 identifier.filter (fun c => c ≠ '_')]
    else forms0
  let spaced := camelSub2 (camelSub1 identifier)
  let forms2 := if spaced ≠ identifier then forms1 ++ [spaced, spaced.filter (fun c => c ≠ ' ')]
    else forms1
  dedupByLower (forms2 ++ [pyLower spaced])

/-- Python `sorted(l, key, reverse=True)`: a stable sort, descending by key
(ties keep original order; stable insertion sort computes the same list as
Python's stable Timsort). -/
def sortDescBy {α β : Type} [LinearOrder β] (key : α → β) (l : List α) : List α :=
  List.insertionSort (fun a b => key b ≤ key a) l

/-- A replacement span: `(start, end, identifier)`. -/
abbrev Rep := Nat × Nat × PyStr

/-- `TranscriptionFormatterService._overlaps_with_replacements`:
`not (end <= r_start or start >= r_end)` for some accepted span. -/
def overlapsWithReplacements (s e : Nat) (reps : List Rep) : Bool :=
  reps.any (fun r => !(decide (e ≤ r.1) || decide (r.2.1 ≤ s)))

/-- All candidate occurrences, in scan order: identifiers sorted by length
descending, then spoken forms in generation order, then regex matches left
to right. -/
def candidateTriples (text : PyStr) (sortedIds : List PyStr) : List Rep :=
  sortedIds.flatMap (fun idf =>
    (generateSpokenForms idf).flatMap (fun sp =>
      (finditerLit text sp).map (fun pr => (pr.1, pr.2, idf))))

/-- Accept one candidate unless it is already formatted or overlaps an
accepted span. -/
def addReplacement (text : PyStr) (acc : List Rep) (c : Rep) : List Rep :=
  if isAlreadyFormatted text c.1 c.2.1 then acc
  else if overlapsWithReplacements c.1 c.2.1 acc then acc
  else acc ++ [c]

/-- The replacement list accumulated within one `format` call. -/
def buildReplacements (text : PyStr) (ids : List PyStr) : List Rep :=
  (candidateTriples text (sortDescBy (fun i => i.length) ids)).foldl (addReplacement text) []

/-- Apply one replacement: `r[:start] + "`" + identifier + "`" + r[end:]`. -/
def applyOne (r : PyStr) (rep : Rep) : PyStr :=
  r.take rep.1 ++ '`' :: (rep.2.2 ++ ['`']) ++ r.drop rep.2.1

/-- `TranscriptionFormatterService.format_with_code_identifiers`. -/
def formatWithCodeIdentifiers (text : PyStr) (identifiers : List PyStr) : PyStr :=
  if text = [] ∨ identifiers = [] then text
  else (sortDescBy (fun r => r.1) (buildReplacements text identifiers)).foldl applyOne text

/-! Model of `CodeIdentifierService.extract_identifiers`.  Each compiled
pattern of the service is modelled by a deterministic matcher that
reproduces the regex's leftmost matching (including the one backtracking
step the kebab-case pattern can take, and the greedy-with-backtracking
`{2,5}` of the acronym pattern); `finditerAux` reproduces non-overlapping
left-to-right scanning. -/
/-- Character test at a position, false out of range. -/
def charTest (pred : Char → Bool) (text : PyStr) (i : Nat) : Bool :=
  decide (i < text.length) && pred (text.getD i ' ')

/-- The class `[a-z0-9]`. -/
def lowerDigit (c : Char) : Bool := c.isLower || c.isDigit

/-- The class `[A-Z0-9]`. -/
def upperDigit (c : Char) : Bool := c.isUpper || c.isDigit

/-- The class `[a-zA-Z_]`. -/
def identStartChar (c : Char) : Bool := c.isAlpha || c = '_'

/-- The class `[.:]`. -/
def dotColon (c : Char) : Bool := c = '.' || c = ':'

/-- Length of the maximal run of `pred`-characters starting at `p`. -/
def takeWhileFrom (pred : Char → Bool) (text : PyStr) (p : Nat) : Nat :=
  ((text.drop p).takeWhile pred).length

/-- `\b[a-z][a-z0-9]*[A-Z][a-zA-Z0-9]*\b` at one position. -/
def camelMatchAt (text : PyStr) (p : Nat) : Option Nat :=
  if isBoundary text p && charTest Char.isLower text p then
    let q := p + 1 + takeWhileFrom lowerDigit text (p + 1)
    if charTest Char.isUpper text q then
      let e := q + 1 + takeWhileFrom Char.isAlphanum text (q + 1)
      if isBoundary text e then some e else none
    else none
  else none

/-- The `(?:[A-Z][a-z0-9]*)*` tail of the PascalCase pattern. -/
def pascalGroups (text : PyStr) : Nat → Nat → Nat
  | 0, q => q
  | fuel + 1, q =>
    if charTest Char.isUpper text q then
      pascalGroups text fuel (q + 1 + takeWhileFrom lowerDigit text (q + 1))
    else q

/-- `\b[A-Z][a-z0-9]+(?:[A-Z][a-z0-9]*)*\b` at one position. -/
def pascalMatchAt (text : PyStr) (p : Nat) : Option Nat :=
  if isBoundary text p && charTest Char.isUpper text p then
    if takeWhileFrom lowerDigit text (p + 1) = 0 then none
    else
      let e := pascalGroups text text.length (p + 1 + takeWhileFrom lowerDigit text (p + 1))
      if isBoundary text e then some e else none
  else none

/-- The `(?:sep[cls]+)+` tail of the snake/screaming patterns. -/
def sepGroups (text : PyStr) (cls : Char → Bool) (sepc : Char) : Nat → Nat → Nat
  | 0, q => q
  | fuel + 1, q =>
    if charTest (fun c => c = sepc) text q && decide (0 < takeWhileFrom cls text (q + 1)) then
      sepGroups text cls sepc fuel (q + 1 + takeWhileFrom cls text (q + 1))
    else q

/-- `\b[a-z][a-z0-9]*(?:_[a-z0-9]+)+\b` at one position. -/
def snakeMatchAt (text : PyStr) (p : Nat) : Option Nat :=
  if isBoundary text p && charTest Char.isLower text p then
    let q := p + 1 + takeWhileFrom lowerDigit text (p + 1)
    let e := sepGroups text lowerDigit '_' text.length q
    if e = q then none
    else if isBoundary text e then some e else none
  else none

/-- `\b[A-Z][A-Z0-9]*(?:_[A-Z0-9]+)+\b` at one position. -/
def screamingMatchAt (text : PyStr) (p : Nat) : Option Nat :=
  if isBoundary text p && charTest Char.isUpper text p then
    let q := p + 1 + takeWhileFrom upperDigit text (p + 1)
    let e := sepGroups text upperDigit '_' text.length q
    if e = q then none
    else if isBoundary text e then some e else none
  else none

/-- The `(?:-[a-z0-9]+)+` tail of the kebab pattern; returns the stop
position of both the last and the second-to-last group iteration (the regex
can backtrack one whole iteration because `-` is a non-word character). -/
def kebabGroups (text : PyStr) : Nat → Nat → Nat → Nat × Nat
  | 0, pr, q => (pr, q)
  | fuel + 1, pr, q =>
    if charTest (fun c => c = '-') text q && decide (0 < takeWhileFrom lowerDigit text (q + 1))
    then kebabGroups text fuel q (q + 1 + takeWhileFrom lowerDigit text (q + 1))
    else (pr, q)

/-- `\b[a-z][a-z0-9]*(?:-[a-z0-9]+)+\b` at one position. -/
def kebabMatchAt (text : PyStr) (p : Nat) : Option Nat :=
  if isBoundary text p && charTest Char.isLower text p then
    let q := p + 1 + takeWhileFrom lowerDigit text (p + 1)
    let pe := kebabGroups text text.length q q
    if pe.2 = q then none
    else if isBoundary text pe.2 then some pe.2
    else if pe.1 ≠ q then some pe.1
    else none
  else none

/-- Backtracking of the greedy `[A-Z]{2,5}`: try the current length, then
shorter ones down to 2. -/
def acronymTry (text : PyStr) (p : Nat) : Nat → Option Nat
  | 0 => none
  | k + 1 =>
    if 2 ≤ k + 1 && isBoundary text (p + (k + 1)) then some (p + (k + 1))
    else acronymTry text p k

/-- `\b[A-Z]{2,5}\b` at one position. -/
def acronymMatchAt (text : PyStr) (p : Nat) : Option Nat :=
  if isBoundary text p then acronymTry text p (min (takeWhileFrom Char.isUpper text p) 5)
  else none

/-- `\b[A-Z]\b` at one position. -/
def singleUpperMatchAt (text : PyStr) (p : Nat) : Option Nat :=
  if isBoundary text p && charTest Char.isUpper text p && isBoundary text (p + 1)
  then some (p + 1) else none

/-- `\b([a-zA-Z_][a-zA-Z0-9_]*)\s*\(\)` at one position: returns the match
end and the end of the name group. -/
def funcCallMatchAt (text : PyStr) (p : Nat) : Option (Nat × Nat) :=
  if isBoundary text p && charTest identStartChar text p then
    let ne := p + 1 + takeWhileFrom isWordChar text (p + 1)
    let q := ne + takeWhileFrom pyIsSpace text ne
    if charTest (fun c => c = '(') text q && charTest (fun c => c = ')') text (q + 1) then
      some (q + 2, ne)
    else none
  else none

/-- Second group `[a-zA-Z_][a-zA-Z0-9_]*\b` of the namespace pattern. -/
def nsGroup2 (text : PyStr) (q : Nat) : Option Nat :=
  if charTest identStartChar text q then
    let e := q + 1 + takeWhileFrom isWordChar text (q + 1)
    if isBoundary text e then some e else none
  else none

/-- `\b([a-zA-Z_][a-zA-Z0-9_]*)[.:]{1,2}([a-zA-Z_][a-zA-Z0-9_]*)\b` at one
position: returns the match end, the end of the namespace group, and the
start of the member group (the greedy `[.:]{1,2}` tries two separator
characters, then backtracks to one). -/
def namespaceMatchAt (text : PyStr) (p : Nat) : Option (Nat × Nat × Nat) :=
  if isBoundary text p && charTest identStartChar text p then
    let ne := p + 1 + takeWhileFrom isWordChar text (p + 1)
    if charTest dotColon text ne then
      if charTest dotColon text (ne + 1) then
        match nsGroup2 text (ne + 2) with
        | some e2 => some (e2, ne, ne + 2)
        | none =>
          match nsGroup2 text (ne + 1) with
          | some e2 => some (e2, ne, ne + 1)
          | none => none
      else
        match nsGroup2 text (ne + 1) with
        | some e2 => some (e2, ne, ne + 1)
        | none => none
    else none
  else none

/-- Python slice `text[s:e]`. -/
def substringOf (text : PyStr) (s e : Nat) : PyStr := (text.take e).drop s

/-- All matched substrings of a whole-match pattern, in scan order. -/
def patternMatches (matchAt : PyStr → Nat → Option Nat) (text : PyStr) : List PyStr :=
  (finditerAux (matchAt text) text.length (text.length + 2) 0).map
    (fun pr => substringOf text pr.1 pr.2)

/-- The captured name of every function-call match. -/
def funcCallGroups (text : PyStr) : List PyStr :=
  (finditerAux (fun p => (funcCallMatchAt text p).map Prod.fst) text.length
      (text.length + 2) 0).map
    (fun pr =>
      match funcCallMatchAt text pr.1 with
      | some m => substringOf text pr.1 m.2
      | none => [])

/-- The `(namespace, member)` groups of every namespace match. -/
def namespacePairs (text : PyStr) : List (PyStr × PyStr) :=
  (finditerAux (fun p => (namespaceMatchAt text p).map (fun m => m.1)) text.length
      (text.length + 2) 0).map
    (fun pr =>
      match namespaceMatchAt text pr.1 with
      | some m => (substringOf text pr.1 m.2.1, substringOf text m.2.2 m.1)
      | none => ([], []))

/-- The `STOPWORDS` set of `CodeIdentifierService` (the Python literal lists
`'let'`, `'this'` and `'from'` twice; set semantics keep one copy). -/
def STOPWORDS : List PyStr := ([
  "a", "an", "the", "and", "or", "but", "if", "then", "else", "when",
  "at", "by", "for", "from", "in", "into", "of", "on", "to", "with",
  "is", "are", "was", "were", "be", "been", "being", "have", "has",
  "had", "do", "does", "did", "will", "would", "should", "could",
  "can", "may", "might", "must", "get", "set", "let", "make",
  "i", "you", "he", "she", "it", "we", "they", "them", "their",
  "this", "that", "these", "those", "my", "your", "his", "her",
  "not", "no", "yes", "all", "some", "any", "each", "every",
  "more", "less", "most", "least", "very", "too", "so", "just",
  "time", "year", "day", "way", "man", "thing", "woman", "life",
  "child", "world", "school", "state", "family", "student", "group",
  "var", "const", "function", "class", "return", "import",
  "export", "as", "new", "super", "extends",
  "implements", "interface", "type", "enum", "public", "private",
  "protected", "static", "async", "await", "try", "catch", "finally",
  "throw", "throws", "void", "null", "undefined", "true", "false",
  "break", "continue", "while", "switch", "case", "default",
  "ok", "go", "up", "down", "out", "off", "end", "run", "put"] : List String).map
  String.data

/-- `CodeIdentifierService._is_valid_candidate`. -/
def isValidCandidate (identifier : PyStr) : Bool :=
  if identifier = [] then false
  else if identifier.length < 2 then false
  else if STOPWORDS.contains (pyLower identifier) then false
  else if identifier.all (fun c => c = '_' || c = '-') then false
  else if !(identifier.any Char.isAlpha) then false
  else true

/-- Insertion into the model of the Python set (membership-checked list,
insertion order). -/
def addIdent (acc : List PyStr) (x : PyStr) : List PyStr :=
  if acc.contains x then acc else acc ++ [x]

/-- Insert only valid candidates. -/
def addIfValid (acc : List PyStr) (x : PyStr) : List PyStr :=
  if isValidCandidate x then addIdent acc x else acc

/-- Python `str.isupper` (ASCII): some cased character, and no lowercase. -/
def pyIsUpperStr (s : PyStr) : Bool := s.any Char.isUpper && !(s.any Char.isLower)

/-- `CodeIdentifierService._identifier_score`, as the exact rational over the
common denominator 20: `min(len/20, 1)*10` is `min(len,20)*10/20`, and the
bonuses `+5` (mixed case), `+7` (isupper with `_`), `+3` (`_` or `-`),
`+8` (`.` or `::`), `+2` (camelCase or snake_case `.match`) each contribute
`bonus*20/20`. -/
def identifierScore (identifier : PyStr) : ℚ :=
  mkRat (min identifier.length 20 * 10
    + ((if identifier.any Char.isUpper && identifier.any Char.isLower then 5 else 0)
      + (if pyIsUpperStr identifier && identifier.contains '_' then 7 else 0)
      + (if identifier.contains '_' || identifier.contains '-' then 3 else 0)
      + (if identifier.contains '.' || isSubstring ("::".data) identifier then 8 else 0)
      + (if (camelMatchAt identifier 0).isSome || (snakeMatchAt identifier 0).isSome
         then 2 else 0)) * 20) 20

/-- The scoring formula exactly as the specification states it (claim C6):
length score plus the `+5`, `+7`, `+3`, `+8` bonuses and nothing else. -/
def specIdentifierScore (identifier : PyStr) : ℚ :=
  mkRat (min identifier.length 20 * 10
    + ((if identifier.any Char.isUpper && identifier.any Char.isLower then 5 else 0)
      + (if pyIsUpperStr identifier && identifier.contains '_' then 7 else 0)
      + (if identifier.contains '_' || identifier.contains '-' then 3 else 0)
      + (if identifier.contains '.' || isSubstring ("::".data) identifier then 8 else 0))
      * 20) 20

/-- `CodeIdentifierService.extract_identifiers`: run every recognizer, set
insertion with validity filtering (the namespace full string and single
uppercase letters are inserted unfiltered), then sort by score descending. -/
def extractIdentifiers (text : PyStr) : List PyStr :=
  if text = [] then []
  else
    let s1 := (funcCallGroups text).foldl addIfValid []
    let s2 := (namespacePairs text).foldl (fun acc pr =>
      addIdent (addIfValid (addIfValid acc pr.1) pr.2) (pr.1 ++ '.' :: pr.2)) s1
    let s3 := (patternMatches camelMatchAt text).foldl addIfValid s2
    let s4 := (patternMatches pascalMatchAt text).foldl addIfValid s3
    let s5 := (patternMatches snakeMatchAt text).foldl addIfValid s4
    let s6 := (patternMatches screamingMatchAt text).foldl addIfValid s5
    let s7 := (patternMatches kebabMatchAt text).foldl addIfValid s6
    let s8 := (patternMatches acronymMatchAt text).foldl addIfValid s7
    let s9 := (patternMatches singleUpperMatchAt text).foldl addIdent s8
    sortDescBy identifierScore s9

/-! Claim C1: the no-overlap invariant of the accumulated span list. -/
/-- Separation as recorded by the accepted-span check: one span ends no later
than the other starts. -/
def sepRel (a b : Rep) : Prop := b.2.1 ≤ a.1 ∨ a.2.1 ≤ b.1

/-- Overlap of two spans read as half-open intervals `[start, end)`:
their intersection is non-empty. -/
def spansOverlap (a b : Rep) : Prop := max a.1 b.1 < min a.2.1 b.2.1

/-! Claim C2: the frame property of `format`. -/
/-- The frame rendering of an ascending span list: text outside the spans is
copied verbatim from the input starting at `pos`, and each span contributes a
backtick, its caller-cased identifier, and a backtick. -/
def interleave (text : PyStr) : Nat → List Rep → PyStr
  | pos, [] => text.drop pos
  | pos, r :: rest =>
    (text.take r.1).drop pos ++ '`' :: (r.2.2 ++ ['`']) ++ interleave text r.2.1 rest

/-! Helper lemmas about the normalizer. -/
theorem lowerTable_snd_fixed : ∀ p ∈ lowerTable, pyLowerChar p.2 = p.2 := by decide

theorem pyLowerChar_idem (c : Char) : pyLowerChar (pyLowerChar c) = pyLowerChar c := by
  unfold pyLowerChar
  cases h : lowerTable.find? (fun p => p.1 = c) with
  | none => rw [h]
  | some p =>
    have hp := List.mem_of_find?_eq_some h
    have := lowerTable_snd_fixed p hp
    unfold pyLowerChar at this
    exact this

theorem lowerTable_snd_ne_colon : ∀ p ∈ lowerTable, p.2 ≠ ':' := by decide

theorem pyLowerChar_ne_colon (c : Char) (hc : c ≠ ':') : pyLowerChar c ≠ ':' := by
  unfold pyLowerChar
  cases h : lowerTable.find? (fun p => p.1 = c) with
  | none => exact hc
  | some p => exact lowerTable_snd_ne_colon p (List.mem_of_find?_eq_some h)

theorem removeDoubleColon_subset {c : Char} :
    ∀ {l : PyStr}, c ∈ removeDoubleColon l → c ∈ l
  | [], h => h
  | [_], h => h
  | a :: b :: rest, h => by
    by_cases hab : a = ':' ∧ b = ':'
    · have : removeDoubleColon (a :: b :: rest) = removeDoubleColon rest := by
        simp [removeDoubleColon, hab.1, hab.2]
      rw [this] at h
      exact List.mem_cons_of_mem _ (List.mem_cons_of_mem _ (removeDoubleColon_subset h))
    · have hcond : ¬(a = ':' && b = ':') = true := by
        simp only [Bool.and_eq_true, decide_eq_true_eq]
        exact fun hx => hab ⟨hx.1, hx.2⟩
      have : removeDoubleColon (a :: b :: rest) = a :: removeDoubleColon (b :: rest) := by
        simp [removeDoubleColon, hcond]
      rw [this] at h
      rcases List.mem_cons.mp h with h1 | h2
      · exact h1 ▸ List.mem_cons_self a _
      · exact List.mem_cons_of_mem _ (removeDoubleColon_subset h2)

theorem removeDoubleColon_of_no_colon :
    ∀ {l : PyStr}, (∀ c ∈ l, c ≠ ':') → removeDoubleColon l = l
  | [], _ => rfl
  | [c], _ => rfl
  | a :: b :: rest, h => by
    have ha : a ≠ ':' := h a (List.mem_cons_self a _)
    have : (a = ':' && b = ':') = false := by
      simp only [Bool.and_eq_false_iff, decide_eq_false_iff_not]
      exact Or.inl ha
    have hrec : ∀ c ∈ b :: rest, c ≠ ':' := fun c hc => h c (List.mem_cons_of_mem _ hc)
    simp [removeDoubleColon, this, removeDoubleColon_of_no_colon hrec]

theorem map_eq_self_of_forall {f : Char → Char} :
    ∀ {l : PyStr}, (∀ c ∈ l, f c = c) → l.map f = l
  | [], _ => rfl
  | a :: rest, h => by
    have := h a (List.mem_cons_self a _)
    simp [this, map_eq_self_of_forall (fun c hc => h c (List.mem_cons_of_mem _ hc))]

/-- Characters of the normalized string come from lowercasing the input. -/
theorem mem_normalizeIdentifier {c : Char} {word : PyStr}
    (h : c ∈ normalizeIdentifier word) : c ∈ pyLower word := by
  unfold normalizeIdentifier at h
  by_cases hw : word = []
  · simp [hw] at h
  · simp only [hw, if_false] at h
    have h5 := List.mem_of_mem_filter h
    have h4 := removeDoubleColon_subset h5
    exact List.mem_of_mem_filter (List.mem_of_mem_filter (List.mem_of_mem_filter h4))

/-- C9, claim as stated is false: `normalize_identifier` is not idempotent.
On the input `": :"` the first pass removes only the whitespace, producing
`"::"`, and the second pass then removes that `::`, producing the empty
string. -/
theorem normalizeIdentifier_not_idempotent :
    normalizeIdentifier (normalizeIdentifier c9Input) ≠ normalizeIdentifier c9Input := by
  decide

/-- Strings that are already fully normal are fixed points of the normalizer. -/
theorem normalizeIdentifier_fixed (l : PyStr) (hlow : pyLower l = l)
    (hstay : ∀ c ∈ l, c ≠ '_' ∧ c ≠ '-' ∧ c ≠ '.' ∧ c ≠ ':' ∧ pyIsSpace c = false) :
    normalizeIdentifier l = l := by
  by_cases hz : l = []
  · rw [hz]
    rfl
  · unfold normalizeIdentifier
    simp only [hz, if_false]
    rw [hlow]
    have f1 : l.filter (fun c => c ≠ '_') = l :=
      List.filter_eq_self.mpr (fun a ha => by simp [(hstay a ha).1])
    rw [f1]
    have f2 : l.filter (fun c => c ≠ '-') = l :=
      List.filter_eq_self.mpr (fun a ha => by simp [(hstay a ha).2.1])
    rw [f2]
    have f3 : l.filter (fun c => c ≠ '.') = l :=
      List.filter_eq_self.mpr (fun a ha => by simp [(hstay a ha).2.2.1])
    rw [f3]
    have f4 : removeDoubleColon l = l :=
      removeDoubleColon_of_no_colon (fun c hc => (hstay c hc).2.2.2.1)
    rw [f4]
    exact List.filter_eq_self.mpr (fun a ha => by simp [(hstay a ha).2.2.2.2])

/-- C9 amended: `normalize_identifier` is idempotent on every string that
contains no colon character.  (The published claim fails only because the
whitespace removal runs after the `::` removal, so whitespace separating two
colons lets a fresh `::` survive one pass.) -/
theorem normalizeIdentifier_idempotent (word : PyStr) (h : ∀ c ∈ word, c ≠ ':') :
    normalizeIdentifier (normalizeIdentifier word) = normalizeIdentifier word := by
  have hmem : ∀ c ∈ normalizeIdentifier word, c ∈ pyLower word := fun c hc =>
    mem_normalizeIdentifier hc
  apply normalizeIdentifier_fixed
  · apply map_eq_self_of_forall
    intro c hc
    rcases List.mem_map.mp (hmem c hc) with ⟨d, _, hd⟩
    rw [← hd]
    exact pyLowerChar_idem d
  · have hstay : ∀ c ∈ normalizeIdentifier word,
        c ≠ '_' ∧ c ≠ '-' ∧ c ≠ '.' ∧ c ≠ ':' ∧ pyIsSpace c = false := by
      intro c hc
      have hcol : c ≠ ':' := by
        rcases List.mem_map.mp (hmem c hc) with ⟨d, hdmem, hd⟩
        rw [← hd]
        exact pyLowerChar_ne_colon d (h d hdmem)
      unfold normalizeIdentifier at hc
      by_cases hw : word = []
      · simp [hw] at hc
      · simp only [hw, if_false] at hc
        have hns := List.of_mem_filter hc
        have h5 := List.mem_of_mem_filter hc
        have h4 := removeDoubleColon_subset h5
        have hdot := List.of_mem_filter h4
        have h3 := List.mem_of_mem_filter h4
        have hdash := List.of_mem_filter h3
        have h2 := List.mem_of_mem_filter h3
        have hund := List.of_mem_filter h2
        refine ⟨by simpa using hund, by simpa using hdash, by simpa using hdot, hcol, by simpa using hns⟩
    exact hstay

/-- C9 amended witness: a concrete colon-free identifier on which the
normalizer is idempotent. -/
theorem normalizeIdentifier_idempotent_witness :
    (∀ c ∈ ("Get_User by-ID.x".data), c ≠ ':') ∧
      normalizeIdentifier (normalizeIdentifier ("Get_User by-ID.x".data)) =
        normalizeIdentifier ("Get_User by-ID.x".data) :=
  ⟨by decide, normalizeIdentifier_idempotent _ (by decide)⟩

/-! Theorems about `match_identifier`. -/
theorem matchLoop_exact (s sn : PyStr) (t : ℚ) (l2 : List PyStr) (ex : PyStr)
    (hex : normalizeIdentifier ex = sn) :
    ∀ (l1 : List PyStr) (best : Option PyStr) (bs : ℚ),
      (∀ i ∈ l1, normalizeIdentifier i ≠ sn) →
      matchLoop s sn t (l1 ++ ex :: l2) best bs = some ⟨ex, 1, "exact".data⟩
  | [], best, bs, _ => by
    have hc : sn = normalizeIdentifier ex := hex.symm
    simp [matchLoop, ← hc]
  | i :: l1', best, bs, h => by
    have hi : ¬(sn = normalizeIdentifier i) := fun he =>
      h i (List.mem_cons_self i l1') he.symm
    have hrest : ∀ j ∈ l1', normalizeIdentifier j ≠ sn := fun j hj =>
      h j (List.mem_cons_of_mem _ hj)
    simp only [List.cons_append, matchLoop, hi, if_false]
    split
    · exact matchLoop_exact s sn t l2 ex hex l1' _ _ hrest
    · exact matchLoop_exact s sn t l2 ex hex l1' _ _ hrest

/-- C7 counterexample: on the empty spoken phrase the empty-input guard fires
first, so even though the identifier `"_"` normalizes to the same (empty)
string as the phrase, `match_identifier` returns `None` rather than an exact
match. -/
theorem matchIdentifier_empty_phrase_counterexample :
    normalizeIdentifier ("_".data) = normalizeIdentifier ([] : PyStr) ∧
      matchIdentifier [] [("_".data)] (mkRat 6 10) = none := by
  exact ⟨by decide, by decide⟩

/-- C7 amended: for every `non-empty` spoken phrase, if some identifier's
normalized form equals the normalized phrase then `match_identifier` returns
the first such identifier (in caller order) with confidence 1 and match type
`exact`, independently of whatever follows it in the list and of the
threshold. -/
theorem matchIdentifier_exact_first (s : PyStr) (t : ℚ) (l1 l2 : List PyStr) (ex : PyStr)
    (hs : s ≠ []) (hex : normalizeIdentifier ex = normalizeIdentifier s)
    (hl1 : ∀ i ∈ l1, normalizeIdentifier i ≠ normalizeIdentifier s) :
    matchIdentifier s (l1 ++ ex :: l2) t = some ⟨ex, 1, "exact".data⟩ := by
  unfold matchIdentifier
  have hne : ¬(s = [] ∨ l1 ++ ex :: l2 = []) := by
    rintro (h1 | h2)
    · exact hs h1
    · cases l1 <;> simp at h2
  simp only [hne, if_false]
  exact matchLoop_exact s _ t l2 ex hex l1 none 0 hl1

/-- C7 amended witness: the spec's own exact-match example. -/
theorem matchIdentifier_exact_first_witness :
    ("get user by id".data ≠ ([] : PyStr)) ∧
      matchIdentifier ("get user by id".data) [("getUserById".data)] (mkRat 6 10) =
        some ⟨"getUserById".data, 1, "exact".data⟩ :=
  ⟨by decide,
   matchIdentifier_exact_first _ _ [] [] _ (by decide) (by decide)
     (fun i hi => absurd hi (List.not_mem_nil i))⟩

theorem matchLoop_mem (s sn : PyStr) (t : ℚ) :
    ∀ (l : List PyStr) (best : Option PyStr) (bs : ℚ) (m : IdentifierMatch),
      matchLoop s sn t l best bs = some m → m.identifier ∈ l ∨ best = some m.identifier
  | [], best, bs, m, h => by
    cases best with
    | some b =>
      simp only [matchLoop] at h
      split at h
      · cases h
        exact Or.inr rfl
      · cases h
    | none => simp [matchLoop] at h
  | i :: rest, best, bs, m, h => by
    simp only [matchLoop] at h
    split at h
    · cases h
      exact Or.inl (List.mem_cons_self _ _)
    · split at h
      · rcases matchLoop_mem s sn t rest _ _ m h with h1 | h2
        · exact Or.inl (List.mem_cons_of_mem _ h1)
        · cases h2
          exact Or.inl (List.mem_cons_self _ _)
      · rcases matchLoop_mem s sn t rest _ _ m h with h1 | h2
        · exact Or.inl (List.mem_cons_of_mem _ h1)
        · exact Or.inr h2

/-- C10: whenever `match_identifier` returns a match, its identifier field is
one of the caller-supplied identifiers, returned verbatim. -/
theorem matchIdentifier_mem (s : PyStr) (ids : List PyStr) (t : ℚ) (m : IdentifierMatch)
    (h : matchIdentifier s ids t = some m) : m.identifier ∈ ids := by
  unfold matchIdentifier at h
  by_cases hg : s = [] ∨ ids = []
  · simp [hg] at h
  · simp only [hg, if_false] at h
    rcases matchLoop_mem s _ t ids none 0 m h with h1 | h2
    · exact h1
    · exact Option.noConfusion h2

/-- C10 witness: a concrete call whose result's identifier is in the list. -/
theorem matchIdentifier_mem_witness :
    ("clearPasteboard".data) ∈ [("clearPasteboard".data)] :=
  matchIdentifier_mem ("clear paste board".data) [("clearPasteboard".data)] (mkRat 6 10)
    ⟨"clearPasteboard".data, 1, "exact".data⟩ (by decide)

theorem foldr_max_base (l : List ℚ) : ∀ a b : ℚ, b ≤ a →
    l.foldr max a = max a (l.foldr max b) := by
  induction l with
  | nil =>
    intro a b h
    simp [max_eq_left h]
  | cons x xs ih =>
    intro a b h
    simp only [List.foldr_cons]
    rw [ih a b h, max_left_comm]

theorem le_foldr_max (l : List ℚ) (b : ℚ) : b ≤ l.foldr max b := by
  induction l with
  | nil => simp
  | cons x xs ih =>
    simp only [List.foldr_cons]
    exact le_trans ih (le_max_right x _)

theorem foldr_max_attained (l : List ℚ) (b : ℚ) (h : l.foldr max b ≠ b) :
    l.foldr max b ∈ l := by
  induction l with
  | nil => simp at h
  | cons x xs ih =>
    simp only [List.foldr_cons] at h ⊢
    rcases max_cases x (xs.foldr max b) with ⟨heq, _⟩ | ⟨heq, _⟩
    · rw [heq]
      exact List.mem_cons_self _ _
    · rw [heq] at h ⊢
      exact List.mem_cons_of_mem _ (ih h)

theorem firstIdxWith_isSome_of_exists {p : PyStr → Bool} :
    ∀ {l : List PyStr}, (∃ x ∈ l, p x = true) → ∃ k, firstIdxWith p l = some k := by
  intro l
  induction l with
  | nil =>
    rintro ⟨x, hx, _⟩
    exact absurd hx (List.not_mem_nil x)
  | cons a l ih =>
    rintro ⟨x, hx, hp⟩
    by_cases ha : p a = true
    · exact ⟨0, by simp [firstIdxWith, ha]⟩
    · rcases List.mem_cons.mp hx with rfl | hx'
      · exact absurd hp ha
      · rcases ih ⟨x, hx', hp⟩ with ⟨k, hk⟩
        exact ⟨k + 1, by simp [firstIdxWith, ha, hk]⟩

theorem runBest_spec (s sn : PyStr) :
    ∀ (l : List PyStr) (b : Option PyStr) (m : ℚ),
      runBest s sn l (b, m) =
        ((if (l.map (clampedFuzzyScore s sn)).foldr max m ≤ m then b
          else
            match firstIdxWith (fun i =>
                decide (clampedFuzzyScore s sn i =
                  (l.map (clampedFuzzyScore s sn)).foldr max m)) l with
            | some k => some (l.getD k [])
            | none => b),
         (l.map (clampedFuzzyScore s sn)).foldr max m) := by
  intro l
  induction l with
  | nil =>
    intro b m
    simp [runBest]
  | cons i rest ih =>
    intro b m
    set f := clampedFuzzyScore s sn with hf
    set sc := f i with hsc
    have hfold : ((i :: rest).map f).foldr max m = max sc ((rest.map f).foldr max m) := by
      simp [hsc]
    by_cases hlt : m < sc
    · have hstep : runBest s sn (i :: rest) (b, m) = runBest s sn rest (some i, sc) := by
        simp [runBest, hlt, hsc, hf]
      have hMr : (rest.map f).foldr max sc = max sc ((rest.map f).foldr max m) :=
        foldr_max_base (rest.map f) sc m (le_of_lt hlt)
      set M := max sc ((rest.map f).foldr max m) with hM
      have hscM : sc ≤ M := le_max_left _ _
      have hnotle : ¬(M ≤ m) := fun hle => absurd (lt_of_lt_of_le hlt (le_trans hscM hle))
        (lt_irrefl m)
      rw [hstep, ih (some i) sc, hfold, hMr]
      by_cases hsceq : sc = M
      · rw [if_pos (le_of_eq hsceq.symm), if_neg hnotle]
        have hfi : decide (f i = M) = true := by
          rw [← hsc, hsceq]
          simp
        simp [firstIdxWith, hfi]
      · have hnotMsc : ¬(M ≤ sc) := fun hle => hsceq (le_antisymm hscM hle)
        rw [if_neg hnotMsc, if_neg hnotle]
        have hMne : (rest.map f).foldr max sc ≠ sc := by
          rw [hMr]
          exact fun he => hsceq he.symm
        have hmem : M ∈ rest.map f := by
          have := foldr_max_attained (rest.map f) sc hMne
          rwa [hMr] at this
        rcases List.mem_map.mp hmem with ⟨j, hj, hjM⟩
        rcases firstIdxWith_isSome_of_exists (p := fun x => decide (f x = M))
          ⟨j, hj, by simp [hjM]⟩ with ⟨k, hk⟩
        have hfi : decide (f i = M) = false := by
          rw [← hsc]
          simp [hsceq]
        rw [hk]
        simp [firstIdxWith, hfi, hk]
    · have hstep : runBest s sn (i :: rest) (b, m) = runBest s sn rest (b, m) := by
        simp [runBest, hlt, hsc, hf]
      have hscle : sc ≤ m := le_of_not_lt hlt
      have hMeq : max sc ((rest.map f).foldr max m) = (rest.map f).foldr max m :=
        max_eq_right (le_trans hscle (le_foldr_max _ _))
      rw [hstep, ih b m, hfold, hMeq]
      by_cases hle : (rest.map f).foldr max m ≤ m
      · rw [if_pos hle, if_pos hle]
      · rw [if_neg hle, if_neg hle]
        have hfi : (fun j => decide (f j = (rest.map f).foldr max m)) i = false := by
          have : sc ≠ (rest.map f).foldr max m := by
            intro he
            exact hle (he ▸ hscle)
          simp [this]
        have hcons : firstIdxWith (fun j => decide (f j = (rest.map f).foldr max m))
            (i :: rest) =
            (firstIdxWith (fun j => decide (f j = (rest.map f).foldr max m)) rest).map
              (fun k => k + 1) := by
          simp [firstIdxWith, hfi]
        rw [hcons]
        cases hrest : firstIdxWith (fun j => decide (f j = (rest.map f).foldr max m)) rest with
        | none => simp
        | some k => simp

theorem matchLoop_eq_runBest (s sn : PyStr) (t : ℚ) :
    ∀ (l : List PyStr) (best : Option PyStr) (bs : ℚ),
      (∀ i ∈ l, normalizeIdentifier i ≠ sn) →
      matchLoop s sn t l best bs = finalCheck t (runBest s sn l (best, bs))
  | [], best, bs, _ => by
    cases best <;> simp [matchLoop, runBest, finalCheck]
  | i :: rest, best, bs, h => by
    have hi : ¬(sn = normalizeIdentifier i) := fun he => h i (List.mem_cons_self i rest) he.symm
    have hrest : ∀ j ∈ rest, normalizeIdentifier j ≠ sn := fun j hj =>
      h j (List.mem_cons_of_mem _ hj)
    simp only [matchLoop, hi, if_false, runBest]
    split
    · exact matchLoop_eq_runBest s sn t rest _ _ hrest
    · exact matchLoop_eq_runBest s sn t rest _ _ hrest

/-- C8 amended: when no exact match exists, `match_identifier` tracks the
best clamped fuzzy score with a strict `>` comparison (so the earliest list
entry wins ties, and a best is only tracked when some score is strictly
positive), and returns that tracked best as a `fuzzy` match exactly when it
is truthy (non-empty) and its score reaches the threshold; otherwise it
returns none. -/
theorem matchIdentifier_fuzzy_spec (s : PyStr) (ids : List PyStr) (t : ℚ)
    (hs : s ≠ []) (hids : ids ≠ [])
    (hnoexact : ∀ i ∈ ids, normalizeIdentifier i ≠ normalizeIdentifier s) :
    matchIdentifier s ids t =
      (match fuzzyBestSpec s ids with
       | some pr => if pr.1 ≠ [] ∧ t ≤ pr.2 then some ⟨pr.1, pr.2, "fuzzy".data⟩ else none
       | none => none) := by
  unfold matchIdentifier
  have hg : ¬(s = [] ∨ ids = []) := by
    rintro (h1 | h2)
    · exact hs h1
    · exact hids h2
  simp only [hg, if_false]
  rw [matchLoop_eq_runBest s _ t ids none 0 hnoexact, runBest_spec]
  unfold fuzzyBestSpec
  set f := clampedFuzzyScore s (normalizeIdentifier s) with hfdef
  set M := (ids.map f).foldr max 0 with hMdef
  by_cases hle : M ≤ 0
  · simp only [hle, if_pos, if_true]
    rfl
  · simp only [hle, if_neg, if_false]
    have hMne : M ≠ 0 := fun he => hle (le_of_eq he)
    have hmem : M ∈ ids.map f := foldr_max_attained (ids.map f) 0 hMne
    rcases List.mem_map.mp hmem with ⟨j, hj, hjM⟩
    rcases firstIdxWith_isSome_of_exists (p := fun i => decide (f i = M))
      ⟨j, hj, by simp [hjM]⟩ with ⟨k, hk⟩
    rw [hk]
    rfl

/-- C8 counterexample: at threshold 0, with a single identifier whose clamped
fuzzy score is exactly 0, the best score (0) reaches the threshold, yet
`match_identifier` returns none — the strict `>` update never tracks a best,
so the claimed "returns fuzzy iff best score ≥ threshold" fails. -/
theorem matchIdentifier_threshold_counterexample :
    matchIdentifier ("a".data) [("bc".data)] 0 = none ∧
      clampedFuzzyScore ("a".data) (normalizeIdentifier ("a".data)) ("bc".data) = 0 ∧
      (0 : ℚ) ≤ 0 :=
  ⟨by decide, by decide, le_refl 0⟩

/-- C8 amended witness: a concrete fuzzy match through the amended theorem. -/
theorem matchIdentifier_fuzzy_spec_witness :
    matchIdentifier ("ab".data) [("abc".data)] (mkRat 6 10) =
      some ⟨"abc".data, 1, "fuzzy".data⟩ := by
  rw [matchIdentifier_fuzzy_spec ("ab".data) [("abc".data)] (mkRat 6 10)
    (by decide) (by decide) (by decide)]
  decide

theorem sortDescBy_perm {α β : Type} [LinearOrder β] (key : α → β) (l : List α) :
    List.Perm (sortDescBy key l) l :=
  List.perm_insertionSort _ l

theorem sortDescBy_sorted {α β : Type} [LinearOrder β] (key : α → β) (l : List α) :
    (sortDescBy key l).Pairwise (fun a b => key b ≤ key a) := by
  haveI : IsTotal α (fun a b => key b ≤ key a) := ⟨fun a b => le_total (key b) (key a)⟩
  haveI : IsTrans α (fun a b => key b ≤ key a) := ⟨fun a b c h1 h2 => le_trans h2 h1⟩
  exact List.sorted_insertionSort _ l

theorem sep_of_not_overlaps {c : Rep} {acc : List Rep}
    (h : ¬ overlapsWithReplacements c.1 c.2.1 acc = true) :
    ∀ a ∈ acc, sepRel a c := by
  intro a ha
  rw [Bool.not_eq_true, overlapsWithReplacements, List.any_eq_false] at h
  have := h a ha
  simp only [Bool.not_eq_true, Bool.not_eq_false', Bool.or_eq_true, decide_eq_true_eq] at this
  exact this

theorem foldl_addReplacement_pairwise (text : PyStr) :
    ∀ (cands acc : List Rep), acc.Pairwise sepRel →
      (cands.foldl (addReplacement text) acc).Pairwise sepRel := by
  intro cands
  induction cands with
  | nil =>
    intro acc h
    exact h
  | cons c cs ih =>
    intro acc h
    rw [List.foldl_cons]
    apply ih
    unfold addReplacement
    split
    · exact h
    · split
      · exact h
      · rename_i hov
        refine List.pairwise_append.mpr ⟨h, List.pairwise_singleton _ _, ?_⟩
        intro a ha b hb
        rw [List.mem_singleton] at hb
        subst hb
        exact sep_of_not_overlaps hov a ha

theorem buildReplacements_pairwise_sep (text : PyStr) (ids : List PyStr) :
    (buildReplacements text ids).Pairwise sepRel :=
  foldl_addReplacement_pairwise text _ [] List.Pairwise.nil

/-- C1: within one `format_with_code_identifiers` call, the accumulated
replacement-span list contains no two overlapping spans, reading each span as
the half-open interval `[start, end)`. -/
theorem buildReplacements_no_overlap (text : PyStr) (ids : List PyStr) :
    (buildReplacements text ids).Pairwise (fun a b => ¬ spansOverlap a b) := by
  refine (buildReplacements_pairwise_sep text ids).imp ?_
  intro a b hsep hov
  unfold spansOverlap at hov
  rw [max_lt_iff, lt_min_iff, lt_min_iff] at hov
  unfold sepRel at hsep
  rcases hsep with h1 | h2 <;> omega

theorem finditerAux_succ (f : Nat → Option Nat) (len n p : Nat) :
    finditerAux f len (n + 1) p =
      if len < p then []
      else
        match f p with
        | some e =>
          if e = p then (p, p) :: finditerAux f len n (p + 1)
          else (p, e) :: finditerAux f len n e
        | none => finditerAux f len n (p + 1) := rfl

theorem finditerAux_mem {f : Nat → Option Nat} {len : Nat} :
    ∀ {fuel p : Nat} {pr : Nat × Nat}, pr ∈ finditerAux f len fuel p →
      f pr.1 = some pr.2 ∧ pr.1 ≤ len := by
  intro fuel
  induction fuel with
  | zero =>
    intro p pr h
    simp [finditerAux] at h
  | succ n ih =>
    intro p pr h
    cases hm : f p with
    | some e =>
      have hrw : finditerAux f len (n + 1) p =
          if len < p then []
          else if e = p then (p, p) :: finditerAux f len n (p + 1)
          else (p, e) :: finditerAux f len n e := by
        rw [finditerAux_succ, hm]
      rw [hrw] at h
      by_cases hlp : len < p
      · rw [if_pos hlp] at h
        exact absurd h (List.not_mem_nil pr)
      · rw [if_neg hlp] at h
        by_cases hep : e = p
        · rw [if_pos hep] at h
          rcases List.mem_cons.mp h with h1 | h1
          · subst h1
            exact ⟨by rw [hm, hep], by omega⟩
          · exact ih h1
        · rw [if_neg hep] at h
          rcases List.mem_cons.mp h with h1 | h1
          · subst h1
            exact ⟨hm, by omega⟩
          · exact ih h1
    | none =>
      have hrw : finditerAux f len (n + 1) p =
          if len < p then [] else finditerAux f len n (p + 1) := by
        rw [finditerAux_succ, hm]
      rw [hrw] at h
      by_cases hlp : len < p
      · rw [if_pos hlp] at h
        exact absurd h (List.not_mem_nil pr)
      · rw [if_neg hlp] at h
        exact ih h

theorem formatterMatchAt_some {text lit : PyStr} {s e : Nat}
    (h : formatterMatchAt text lit s = some e) (hs : s ≤ text.length) :
    e = s + lit.length ∧ e ≤ text.length := by
  unfold formatterMatchAt at h
  split at h
  · rename_i hcond
    cases h
    simp only [Bool.and_eq_true, decide_eq_true_eq] at hcond
    have h2 : pyLower ((text.drop s).take lit.length) = pyLower lit := hcond.1.2
    have hlen : ((text.drop s).take lit.length).length = lit.length := by
      have := congrArg List.length h2
      simpa [pyLower] using this
    rw [List.length_take, List.length_drop] at hlen
    exact ⟨rfl, by omega⟩
  · cases h

theorem lowerTable_snd_ne_backtick : ∀ p ∈ lowerTable, p.2 ≠ '`' := by decide

theorem pyLowerChar_ne_backtick (c : Char) (hc : c ≠ '`') : pyLowerChar c ≠ '`' := by
  unfold pyLowerChar
  cases h : lowerTable.find? (fun p => p.1 = c) with
  | none => exact hc
  | some p => exact lowerTable_snd_ne_backtick p (List.mem_of_find?_eq_some h)

theorem getD_drop_eq (l : List Char) (n i : Nat) (d : Char) :
    (l.drop n).getD i d = l.getD (n + i) d := by
  rw [List.getD_eq_getElem?_getD, List.getD_eq_getElem?_getD, List.getElem?_drop]

theorem getD_take_eq (l : List Char) (n i : Nat) (d : Char) (h : i < n) :
    (l.take n).getD i d = l.getD i d := by
  rw [List.getD_eq_getElem?_getD, List.getD_eq_getElem?_getD, List.getElem?_take_of_lt h]

theorem pyLower_getD (l : List Char) (i : Nat) :
    (pyLower l).getD i ' ' = pyLowerChar (l.getD i ' ') := by
  rw [List.getD_eq_getElem?_getD, List.getD_eq_getElem?_getD]
  unfold pyLower
  rw [List.getElem?_map]
  cases l[i]? with
  | none => decide
  | some c => rfl

theorem isBoundary_def (text : PyStr) (p : Nat) :
    isBoundary text p =
      ((if p = 0 then false else isWordChar (text.getD (p - 1) ' ')) !=
        (if p < text.length then isWordChar (text.getD p ' ') else false)) := rfl

theorem formatterMatchAt_eq {text lit : PyStr} {p e : Nat}
    (h : formatterMatchAt text lit p = some e) :
    e = p + lit.length ∧ isBoundary text p = true ∧
      pyLower ((text.drop p).take lit.length) = pyLower lit ∧
      isBoundary text (p + lit.length) = true := by
  unfold formatterMatchAt at h
  split at h
  · rename_i hcond
    cases h
    simp only [Bool.and_eq_true, decide_eq_true_eq] at hcond
    exact ⟨rfl, hcond.1.1, hcond.1.2, hcond.2⟩
  · cases h

theorem formatterMatchAt_intro {text lit : PyStr} {p : Nat}
    (h1 : isBoundary text p = true)
    (h2 : pyLower ((text.drop p).take lit.length) = pyLower lit)
    (h3 : isBoundary text (p + lit.length) = true) :
    formatterMatchAt text lit p = some (p + lit.length) := by
  unfold formatterMatchAt
  rw [h1, h3]
  simp [h2]

theorem formatterMatchAt_span {text lit : PyStr} {p e : Nat}
    (h : formatterMatchAt text lit p = some e) (hne : lit ≠ []) :
    p + lit.length ≤ text.length := by
  have hq := (formatterMatchAt_eq h).2.2.1
  have hlen := congrArg List.length hq
  simp only [pyLower, List.length_map, List.length_take, List.length_drop] at hlen
  have hl : 0 < lit.length := List.length_pos.mpr hne
  have hle : lit.length ≤ text.length - p := min_eq_left_iff.mp hlen
  omega

theorem formatterMatchAt_getD {text lit : PyStr} {p e : Nat}
    (h : formatterMatchAt text lit p = some e) (i : Nat) (hi : i < lit.length) :
    pyLowerChar (text.getD (p + i) ' ') = pyLowerChar (lit.getD i ' ') := by
  have hq := (formatterMatchAt_eq h).2.2.1
  have hpt := congrArg (fun l => l.getD i ' ') hq
  simp only at hpt
  rw [pyLower_getD, pyLower_getD, getD_take_eq _ _ _ _ hi, getD_drop_eq] at hpt
  exact hpt

theorem pyLower_slice_eq_of_pointwise {text lit : PyStr} {p : Nat}
    (hlen : p + lit.length ≤ text.length)
    (hpt : ∀ i, i < lit.length →
      pyLowerChar (text.getD (p + i) ' ') = pyLowerChar (lit.getD i ' ')) :
    pyLower ((text.drop p).take lit.length) = pyLower lit := by
  apply List.ext_getElem?_iff.mpr
  intro i
  unfold pyLower
  rw [List.getElem?_map, List.getElem?_map]
  by_cases hi : i < lit.length
  · rw [List.getElem?_take_of_lt hi, List.getElem?_drop]
    have h1 : p + i < text.length := by omega
    rw [List.getElem?_eq_getElem h1, List.getElem?_eq_getElem hi]
    have hv := hpt i hi
    rw [List.getD_eq_getElem?_getD, List.getD_eq_getElem?_getD,
      List.getElem?_eq_getElem h1, List.getElem?_eq_getElem hi] at hv
    simp only [Option.getD_some] at hv
    simp only [Option.map_some']
    rw [hv]
  · have h1 : ((text.drop p).take lit.length)[i]? = none := by
      rw [List.getElem?_eq_none_iff, List.length_take]
      exact le_trans (Nat.min_le_left _ _) (by omega)
    have h2 : lit[i]? = none := List.getElem?_eq_none (by omega)
    rw [h1, h2]

theorem camelSub1_chars : ∀ (s : PyStr) (c : Char), c ∈ camelSub1 s → c ∈ s ∨ c = ' '
  | [], c, h => by simp [camelSub1] at h
  | [a], c, h => by
    simp only [camelSub1, List.mem_singleton] at h
    exact Or.inl (by simp [h])
  | a :: b :: rest, c, h => by
    simp only [camelSub1] at h
    by_cases hab : (a.isLower && b.isUpper) = true
    · rw [if_pos hab] at h
      simp only [List.mem_cons] at h
      rcases h with rfl | rfl | rfl | h
      · exact Or.inl (List.mem_cons_self _ _)
      · exact Or.inr rfl
      · exact Or.inl (by simp)
      · rcases camelSub1_chars rest c h with h1 | h1
        · exact Or.inl (by simp [h1])
        · exact Or.inr h1
    · rw [if_neg hab] at h
      simp only [List.mem_cons] at h
      rcases h with rfl | h
      · exact Or.inl (List.mem_cons_self _ _)
      · rcases camelSub1_chars (b :: rest) c h with h1 | h1
        · exact Or.inl (List.mem_cons_of_mem _ h1)
        · exact Or.inr h1

theorem camelSub2Aux_chars :
    ∀ (fuel : Nat) (s : PyStr) (c : Char), c ∈ camelSub2Aux fuel s → c ∈ s ∨ c = ' '
  | 0, s, c, h => by
    rw [camelSub2Aux] at h
    exact Or.inl h
  | fuel + 1, s, c, h => by
    cases s with
    | nil => simp [camelSub2Aux, upperRunLen] at h
    | cons a rest =>
      by_cases hcond : 2 ≤ upperRunLen (a :: rest) ∧
          upperRunLen (a :: rest) < (a :: rest).length ∧
          ((a :: rest).getD (upperRunLen (a :: rest)) ' ').isLower = true
      · rw [camelSub2Aux, if_pos hcond] at h
        simp only [List.mem_append, List.mem_cons] at h
        rcases h with h1 | rfl | h1 | h1
        · exact Or.inl (List.mem_of_mem_take h1)
        · exact Or.inr rfl
        · exact Or.inl (List.mem_of_mem_drop (List.mem_of_mem_take h1))
        · rcases camelSub2Aux_chars fuel _ c h1 with h2 | h2
          · exact Or.inl (List.mem_of_mem_drop h2)
          · exact Or.inr h2
      · rw [camelSub2Aux, if_neg hcond] at h
        simp only [List.mem_cons] at h
        rcases h with rfl | h1
        · exact Or.inl (List.mem_cons_self _ _)
        · rcases camelSub2Aux_chars fuel rest c h1 with h2 | h2
          · exact Or.inl (List.mem_cons_of_mem _ h2)
          · exact Or.inr h2

theorem spaced_no_backtick {idf : PyStr} (hid : ∀ c ∈ idf, c ≠ '`') :
    ∀ c ∈ camelSub2 (camelSub1 idf), c ≠ '`' := by
  intro c hc
  unfold camelSub2 at hc
  rcases camelSub2Aux_chars _ _ c hc with h1 | h1
  · rcases camelSub1_chars _ c h1 with h2 | h2
    · exact hid c h2
    · subst h2
      decide
  · subst h1
    decide

theorem candidateTriples_mem {text : PyStr} {sids : List PyStr} {c : Rep}
    (h : c ∈ candidateTriples text sids) :
    ∃ idf ∈ sids, ∃ sp ∈ generateSpokenForms idf, (c.1, c.2.1) ∈ finditerLit text sp := by
  unfold candidateTriples at h
  rcases List.mem_flatMap.mp h with ⟨idf, hidf, h2⟩
  rcases List.mem_flatMap.mp h2 with ⟨sp, hsp, h3⟩
  rcases List.mem_map.mp h3 with ⟨pr, hpr, h4⟩
  refine ⟨idf, hidf, sp, hsp, ?_⟩
  rw [← h4]
  exact hpr

theorem mem_foldl_addReplacement {text : PyStr} :
    ∀ {cands : List Rep} {acc : List Rep} {x : Rep},
      x ∈ cands.foldl (addReplacement text) acc → x ∈ acc ∨ x ∈ cands := by
  intro cands
  induction cands with
  | nil =>
    intro acc x h
    exact Or.inl h
  | cons c cs ih =>
    intro acc x h
    rw [List.foldl_cons] at h
    rcases ih h with h1 | h2
    · unfold addReplacement at h1
      split at h1
      · exact Or.inl h1
      · split at h1
        · exact Or.inl h1
        · rcases List.mem_append.mp h1 with h3 | h4
          · exact Or.inl h3
          · rw [List.mem_singleton] at h4
            exact Or.inr (h4 ▸ List.mem_cons_self c cs)
    · exact Or.inr (List.mem_cons_of_mem _ h2)

theorem candidateTriples_mem_full {text : PyStr} {sids : List PyStr} {c : Rep}
    (h : c ∈ candidateTriples text sids) :
    ∃ idf ∈ sids, ∃ sp ∈ generateSpokenForms idf,
      (c.1, c.2.1) ∈ finditerLit text sp ∧ c.2.2 = idf := by
  unfold candidateTriples at h
  rcases List.mem_flatMap.mp h with ⟨idf, hidf, h2⟩
  rcases List.mem_flatMap.mp h2 with ⟨sp, hsp, h3⟩
  rcases List.mem_map.mp h3 with ⟨pr, hpr, h4⟩
  subst h4
  exact ⟨idf, hidf, sp, hsp, hpr, rfl⟩

theorem candidateTriples_mem_intro {text : PyStr} {sids : List PyStr} {idf sp : PyStr}
    {pr : Nat × Nat} (hidf : idf ∈ sids) (hsp : sp ∈ generateSpokenForms idf)
    (hpr : pr ∈ finditerLit text sp) :
    (pr.1, pr.2, idf) ∈ candidateTriples text sids := by
  unfold candidateTriples
  exact List.mem_flatMap.mpr ⟨idf, hidf,
    List.mem_flatMap.mpr ⟨sp, hsp, List.mem_map.mpr ⟨pr, hpr, rfl⟩⟩⟩

theorem foldl_addReplacement_not_formatted {text : PyStr} :
    ∀ {cands acc : List Rep} {x : Rep},
      x ∈ cands.foldl (addReplacement text) acc →
      x ∈ acc ∨ isAlreadyFormatted text x.1 x.2.1 = false := by
  intro cands
  induction cands with
  | nil =>
    intro acc x h
    exact Or.inl h
  | cons c cs ih =>
    intro acc x h
    rw [List.foldl_cons] at h
    rcases ih h with h1 | h1
    · unfold addReplacement at h1
      split at h1
      · exact Or.inl h1
      · rename_i hnf
        split at h1
        · exact Or.inl h1
        · rcases List.mem_append.mp h1 with h3 | h4
          · exact Or.inl h3
          · rw [List.mem_singleton] at h4
            subst h4
            exact Or.inr (by simpa using hnf)
    · exact Or.inr h1

theorem isAlreadyFormatted_of_parity {text : PyStr} {s e : Nat}
    (h : (text.take s).count '`' % 2 = 1) : isAlreadyFormatted text s e = true := by
  unfold isAlreadyFormatted
  simp [h]

theorem parity_even_of_not_formatted {text : PyStr} {s e : Nat}
    (h : isAlreadyFormatted text s e = false) : (text.take s).count '`' % 2 = 0 := by
  by_contra hc
  have h1 : (text.take s).count '`' % 2 = 1 := by omega
  rw [isAlreadyFormatted_of_parity h1] at h
  cases h

theorem getD_slice (text : PyStr) (pos a i : Nat) (hi : i < a - pos) :
    ((text.take a).drop pos).getD i ' ' = text.getD (pos + i) ' ' := by
  rw [getD_drop_eq, getD_take_eq _ _ _ _ (by omega)]

theorem count_backtick_slice_zero {text : PyStr} {a b : Nat}
    (h : ∀ i, a ≤ i → i < b → text.getD i ' ' ≠ '`') :
    ((text.take b).drop a).count '`' = 0 := by
  apply List.count_eq_zero.mpr
  intro hmem
  rcases List.mem_iff_getElem.mp hmem with ⟨j, hj, hv⟩
  have hlen : ((text.take b).drop a).length ≤ b - a := by
    rw [List.length_drop, List.length_take]
    have := Nat.min_le_left b text.length
    omega
  have hj' : j < b - a := by omega
  have hgd : ((text.take b).drop a).getD j ' ' = text.getD (a + j) ' ' :=
    getD_slice text a b j hj'
  rw [List.getD_eq_getElem?_getD, List.getElem?_eq_getElem hj] at hgd
  simp only [Option.getD_some] at hgd
  have hg : text.getD (a + j) ' ' = '`' := by
    rw [← hgd, hv]
  exact h (a + j) (by omega) (by omega) hg

theorem finditerAux_complete {f : Nat → Option Nat} {len : Nat}
    (hpos : ∀ p e, f p = some e → p < e) :
    ∀ (fuel p s₀ e₀ : Nat), f s₀ = some e₀ → p ≤ s₀ → s₀ ≤ len → len + 1 ≤ fuel + p →
      (s₀, e₀) ∈ finditerAux f len fuel p ∨
        ∃ pr ∈ finditerAux f len fuel p, pr.1 < s₀ ∧ s₀ < pr.2 := by
  intro fuel
  induction fuel with
  | zero =>
    intro p s₀ e₀ hm hp hs hf
    exact absurd hf (by omega)
  | succ n ih =>
    intro p s₀ e₀ hm hp hs hf
    by_cases hlp : len < p
    · exact absurd hs (by omega)
    cases hmp : f p with
    | none =>
      have hrw : finditerAux f len (n + 1) p = finditerAux f len n (p + 1) := by
        rw [finditerAux_succ, hmp, if_neg hlp]
      have hne : p ≠ s₀ := by
        intro hcon
        rw [hcon, hm] at hmp
        cases hmp
      rw [hrw]
      exact ih (p + 1) s₀ e₀ hm (by omega) hs (by omega)
    | some e =>
      have hee : p < e := hpos p e hmp
      have hne : ¬ (e = p) := by omega
      have hrw : finditerAux f len (n + 1) p = (p, e) :: finditerAux f len n e := by
        rw [finditerAux_succ, hmp, if_neg hlp]
        exact if_neg hne
      rw [hrw]
      by_cases hps : p = s₀
      · subst hps
        rw [hm] at hmp
        have he : e = e₀ := (Option.some.inj hmp).symm
        subst he
        exact Or.inl (List.mem_cons_self _ _)
      · have hps' : p < s₀ := by omega
        by_cases hes : e ≤ s₀
        · rcases ih e s₀ e₀ hm hes hs (by omega) with h1 | ⟨pr, hpr, hpr2⟩
          · exact Or.inl (List.mem_cons_of_mem _ h1)
          · exact Or.inr ⟨pr, List.mem_cons_of_mem _ hpr, hpr2⟩
        · exact Or.inr ⟨(p, e), List.mem_cons_self _ _, by omega, by omega⟩

theorem isBoundary_congr {t₁ t₂ : PyStr} {p₁ p₂ : Nat}
    (hb : (if p₁ = 0 then false else isWordChar (t₁.getD (p₁ - 1) ' ')) =
      (if p₂ = 0 then false else isWordChar (t₂.getD (p₂ - 1) ' ')))
    (ha : (if p₁ < t₁.length then isWordChar (t₁.getD p₁ ' ') else false) =
      (if p₂ < t₂.length then isWordChar (t₂.getD p₂ ' ') else false)) :
    isBoundary t₁ p₁ = isBoundary t₂ p₂ := by
  rw [isBoundary_def, isBoundary_def, hb, ha]

theorem match_contains_backtick {t sp : PyStr} {s k : Nat}
    (hm : formatterMatchAt t sp s = some (s + sp.length))
    (hspbt : ∀ c ∈ sp, c ≠ '`')
    (hk : s ≤ k) (hk2 : k < s + sp.length) (hv : t.getD k ' ' = '`') : False := by
  have hi : k - s < sp.length := by omega
  have h1 := formatterMatchAt_getD hm (k - s) hi
  have h2 : s + (k - s) = k := by omega
  rw [h2, hv] at h1
  have h3 : pyLowerChar '`' = '`' := by decide
  rw [h3] at h1
  have hmem : sp.getD (k - s) ' ' ∈ sp := by
    rw [List.getD_eq_getElem?_getD, List.getElem?_eq_getElem hi]
    simp only [Option.getD_some]
    exact List.getElem_mem _
  exact pyLowerChar_ne_backtick _ (hspbt _ hmem) h1.symm

theorem count_take_split (text : PyStr) (c : Char) (pos a : Nat) (h : pos ≤ a) :
    (text.take a).count c = (text.take pos).count c + ((text.take a).drop pos).count c := by
  conv_lhs => rw [← List.take_append_drop pos (text.take a)]
  rw [List.count_append, List.take_take, min_eq_left h]

theorem seg_match_transfer (text sp : PyStr) (hspne : sp ≠ [])
    (pre rest' : PyStr) (pos a : Nat)
    (hpa : pos ≤ a) (hal : a ≤ text.length)
    (hpre : pre = [] ∨ ∃ p', pre = p' ++ ['`'])
    (hpos0 : pos = 0 ∨ isBoundary text pos = true)
    (hend : (a = text.length ∧ rest' = []) ∨ isBoundary text a = true)
    (s : Nat) (hs : pre.length ≤ s) (hsn : s - pre.length + sp.length ≤ a - pos)
    (hm : formatterMatchAt (pre ++ ((text.take a).drop pos ++ rest')) sp s =
      some (s + sp.length)) :
    formatterMatchAt text sp (pos + (s - pre.length)) =
      some (pos + (s - pre.length) + sp.length) := by
  have hn : 0 < sp.length := List.length_pos.mpr hspne
  have hme := formatterMatchAt_eq hm
  have hb1 := hme.2.1
  have hb2 := hme.2.2.2
  have hseg_len : ((text.take a).drop pos).length = a - pos := by
    rw [List.length_drop, List.length_take, min_eq_left hal]
  have hout_len : (pre ++ ((text.take a).drop pos ++ rest')).length =
      pre.length + ((a - pos) + rest'.length) := by
    rw [List.length_append, List.length_append, hseg_len]
  have hgd : ∀ j, j < a - pos →
      (pre ++ ((text.take a).drop pos ++ rest')).getD (pre.length + j) ' ' =
        text.getD (pos + j) ' ' := by
    intro j hj
    rw [List.getD_append_right _ _ _ _ (by omega)]
    have hidx : pre.length + j - pre.length = j := by omega
    rw [hidx, List.getD_append _ _ _ _ (by rw [hseg_len]; exact hj)]
    exact getD_slice text pos a j hj
  have hchar : ∀ i, i < sp.length →
      pyLowerChar (text.getD (pos + (s - pre.length) + i) ' ') =
        pyLowerChar (sp.getD i ' ') := by
    intro i hi
    have h1 := formatterMatchAt_getD hm i hi
    have h2 : s + i = pre.length + (s - pre.length + i) := by omega
    rw [h2, hgd _ (by omega)] at h1
    have h3 : pos + (s - pre.length + i) = pos + (s - pre.length) + i := by omega
    rw [h3] at h1
    exact h1
  have hfit : pos + (s - pre.length) + sp.length ≤ a := by omega
  have hslice : pyLower ((text.drop (pos + (s - pre.length))).take sp.length) = pyLower sp :=
    pyLower_slice_eq_of_pointwise (by omega) hchar
  have hstart : isBoundary text (pos + (s - pre.length)) = true := by
    by_cases ht : s - pre.length = 0
    · rcases hpos0 with hp0 | hp0
      · rw [ht, hp0]
        have hbefore : (if s = 0 then false
            else isWordChar ((pre ++ ((text.take a).drop pos ++ rest')).getD (s - 1) ' ')) =
              false := by
          by_cases hs0 : s = 0
          · rw [if_pos hs0]
          · rw [if_neg hs0]
            rcases hpre with hpe | ⟨p', hp'⟩
            · exfalso
              apply hs0
              rw [hpe] at ht
              simpa using ht
            · have hsl : s = pre.length := by omega
              have hc : (pre ++ ((text.take a).drop pos ++ rest')).getD (s - 1) ' ' = '`' := by
                rw [List.getD_append _ _ _ _ (by omega)]
                rw [hp', List.getD_append_right _ _ _ _ (by simp [hp'] at hsl ⊢; omega)]
                have : s - 1 - p'.length = 0 := by
                  simp [hp'] at hsl
                  omega
                rw [this]
                rfl
              rw [hc]
              rfl
        rw [isBoundary_def, hbefore] at hb1
        have hafter : (if s < (pre ++ ((text.take a).drop pos ++ rest')).length then
            isWordChar ((pre ++ ((text.take a).drop pos ++ rest')).getD s ' ') else false) =
              true := by
          cases hx : (if s < (pre ++ ((text.take a).drop pos ++ rest')).length then
            isWordChar ((pre ++ ((text.take a).drop pos ++ rest')).getD s ' ') else false) with
          | true => rfl
          | false => rw [hx] at hb1; cases hb1
        have hc2 : s < (pre ++ ((text.take a).drop pos ++ rest')).length := by
          by_contra hcon
          rw [if_neg hcon] at hafter
          cases hafter
        rw [if_pos hc2] at hafter
        have hval : (pre ++ ((text.take a).drop pos ++ rest')).getD s ' ' =
            text.getD (pos + (s - pre.length)) ' ' := by
          have h2 : s = pre.length + (s - pre.length) := by omega
          conv_lhs => rw [h2]
          exact hgd _ (by omega)
        rw [hval] at hafter
        rw [ht, hp0] at hafter
        rw [isBoundary_def]
        have hz : (0 : Nat) + 0 = 0 := rfl
        rw [hz] at hafter ⊢
        rw [if_pos rfl]
        have hlt : 0 < text.length := by omega
        rw [if_pos hlt]
        rw [hafter]
        rfl
      · rw [ht]
        simpa using hp0
    · have hbeq : isBoundary text (pos + (s - pre.length)) =
          isBoundary (pre ++ ((text.take a).drop pos ++ rest')) s := by
        apply isBoundary_congr
        · have hs1 : ¬ (pos + (s - pre.length) = 0) := by omega
          have hs2 : ¬ (s = 0) := by omega
          rw [if_neg hs1, if_neg hs2]
          congr 1
          have h2 : s - 1 = pre.length + (s - pre.length - 1) := by omega
          rw [h2, hgd _ (by omega)]
          congr 1
          omega
        · have hc1 : pos + (s - pre.length) < text.length := by omega
          have hc2 : s < (pre ++ ((text.take a).drop pos ++ rest')).length := by
            rw [hout_len]
            omega
          rw [if_pos hc1, if_pos hc2]
          congr 1
          have h2 : s = pre.length + (s - pre.length) := by omega
          conv_rhs => rw [h2]
          rw [hgd _ (by omega)]
      rw [hbeq]
      exact hb1
  have hendb : isBoundary text (pos + (s - pre.length) + sp.length) = true := by
    by_cases hflt : s - pre.length + sp.length < a - pos
    · have hbeq : isBoundary text (pos + (s - pre.length) + sp.length) =
          isBoundary (pre ++ ((text.take a).drop pos ++ rest')) (s + sp.length) := by
        apply isBoundary_congr
        · have hs1 : ¬ (pos + (s - pre.length) + sp.length = 0) := by omega
          have hs2 : ¬ (s + sp.length = 0) := by omega
          rw [if_neg hs1, if_neg hs2]
          congr 1
          have h2 : s + sp.length - 1 = pre.length + (s - pre.length + sp.length - 1) := by
            omega
          rw [h2, hgd _ (by omega)]
          congr 1
          omega
        · have hc1 : pos + (s - pre.length) + sp.length < text.length := by omega
          have hc2 : s + sp.length < (pre ++ ((text.take a).drop pos ++ rest')).length := by
            rw [hout_len]
            omega
          rw [if_pos hc1, if_pos hc2]
          congr 1
          have h2 : s + sp.length = pre.length + (s - pre.length + sp.length) := by omega
          conv_rhs => rw [h2]
          rw [hgd _ (by omega)]
          congr 1
          omega
      rw [hbeq]
      exact hb2
    · have hteq : s - pre.length + sp.length = a - pos := by omega
      rcases hend with ⟨ha_len, hr_nil⟩ | hba
      · have hbeq : isBoundary text (pos + (s - pre.length) + sp.length) =
            isBoundary (pre ++ ((text.take a).drop pos ++ rest')) (s + sp.length) := by
          apply isBoundary_congr
          · have hs1 : ¬ (pos + (s - pre.length) + sp.length = 0) := by omega
            have hs2 : ¬ (s + sp.length = 0) := by omega
            rw [if_neg hs1, if_neg hs2]
            congr 1
            have h2 : s + sp.length - 1 = pre.length + (s - pre.length + sp.length - 1) := by
              omega
            rw [h2, hgd _ (by omega)]
            congr 1
            omega
          · have hc1 : ¬ (pos + (s - pre.length) + sp.length < text.length) := by omega
            have hc2 : ¬ (s + sp.length <
                (pre ++ ((text.take a).drop pos ++ rest')).length) := by
              rw [hout_len, hr_nil]
              simp
              omega
            rw [if_neg hc1, if_neg hc2]
        rw [hbeq]
        exact hb2
      · have h2 : pos + (s - pre.length) + sp.length = a := by omega
        rw [h2]
        exact hba
  exact formatterMatchAt_intro hstart hslice hendb

theorem block_open_char (text pre : PyStr) (pos a : Nat) (hal : a ≤ text.length)
    (idtail : PyStr) :
    (pre ++ ((text.take a).drop pos ++ '`' :: idtail)).getD (pre.length + (a - pos)) ' ' =
      '`' := by
  rw [List.getD_append_right _ _ _ _ (by omega)]
  have h1 : pre.length + (a - pos) - pre.length = a - pos := by omega
  rw [h1]
  have hseg_len : ((text.take a).drop pos).length = a - pos := by
    rw [List.length_drop, List.length_take, min_eq_left hal]
  rw [List.getD_append_right _ _ _ _ (le_of_eq hseg_len)]
  rw [hseg_len]
  have h2 : a - pos - (a - pos) = 0 := by omega
  rw [h2]
  rfl

theorem block_getD (text pre : PyStr) (pos a : Nat) (hal : a ≤ text.length)
    (w : PyStr) (m : Nat) :
    (pre ++ ((text.take a).drop pos ++ '`' :: w)).getD
      (pre.length + (a - pos) + 1 + m) ' ' = w.getD m ' ' := by
  rw [List.getD_append_right _ _ _ _ (by omega)]
  have hseg_len : ((text.take a).drop pos).length = a - pos := by
    rw [List.length_drop, List.length_take, min_eq_left hal]
  have h1 : pre.length + (a - pos) + 1 + m - pre.length = a - pos + 1 + m := by omega
  rw [h1, List.getD_append_right _ _ _ _ (by rw [hseg_len]; omega)]
  rw [hseg_len]
  have h2 : a - pos + 1 + m - (a - pos) = m + 1 := by omega
  rw [h2]
  rfl

theorem take_block_interior (pre seg idf tail : PyStr) (q : Nat) (hq : q ≤ idf.length) :
    (pre ++ (seg ++ '`' :: ((idf ++ ['`']) ++ tail))).take (pre.length + seg.length + 1 + q) =
      pre ++ (seg ++ '`' :: idf.take q) := by
  rw [List.take_append_eq_append_take, List.take_of_length_le (by omega)]
  congr 1
  have h1 : pre.length + seg.length + 1 + q - pre.length = seg.length + 1 + q := by omega
  rw [h1, List.take_append_eq_append_take, List.take_of_length_le (by omega)]
  congr 1
  have h2 : seg.length + 1 + q - seg.length = q + 1 := by omega
  rw [h2, List.take_succ_cons]
  congr 1
  rw [List.take_append_eq_append_take]
  have h3 : q - (idf ++ ['`']).length = 0 := by
    rw [List.length_append]
    simp only [List.length_singleton]
    omega
  rw [h3, List.take_zero, List.append_nil, List.take_append_eq_append_take]
  have h4 : q - idf.length = 0 := by omega
  rw [h4, List.take_zero, List.append_nil]

theorem interleave_match_suppressed (text sp : PyStr)
    (hspne : sp ≠ []) (hspbt : ∀ c ∈ sp, c ≠ '`') :
    ∀ (L : List Rep) (pre : PyStr) (pos : Nat),
      pre = [] ∨ (∃ p', pre = p' ++ ['`']) →
      pre.count '`' % 2 = (text.take pos).count '`' % 2 →
      pos = 0 ∨ isBoundary text pos = true →
      pos ≤ text.length →
      (∀ r ∈ L, pos ≤ r.1 ∧ r.1 < r.2.1 ∧ r.2.1 ≤ text.length ∧
        isBoundary text r.1 = true ∧ isBoundary text r.2.1 = true ∧
        (∀ c ∈ r.2.2, c ≠ '`') ∧ (∀ i, r.1 ≤ i → i < r.2.1 → text.getD i ' ' ≠ '`') ∧
        (text.take r.1).count '`' % 2 = 0) →
      L.Pairwise (fun x y => x.2.1 ≤ y.1) →
      ∀ s : Nat, pre.length ≤ s →
        formatterMatchAt (pre ++ interleave text pos L) sp s = some (s + sp.length) →
        isAlreadyFormatted (pre ++ interleave text pos L) s (s + sp.length) = true ∨
          ∃ s₀, pos ≤ s₀ ∧ formatterMatchAt text sp s₀ = some (s₀ + sp.length) ∧
            ∀ r ∈ L, s₀ + sp.length ≤ r.1 ∨ r.2.1 ≤ s₀ := by
  have hn : 0 < sp.length := List.length_pos.mpr hspne
  intro L
  induction L with
  | nil =>
    intro pre pos hpre hcnt hpos0 hpl hL hLs s hs hm
    right
    have hrw : (interleave text pos [] : PyStr) = (text.take text.length).drop pos ++ [] := by
      simp [interleave, List.take_length]
    rw [hrw] at hm
    have hspan := formatterMatchAt_span hm hspne
    have hlen2 : (pre ++ ((text.take text.length).drop pos ++ [])).length =
        pre.length + (text.length - pos) := by
      simp
    rw [hlen2] at hspan
    have hsn : s - pre.length + sp.length ≤ text.length - pos := by omega
    have hmt := seg_match_transfer text sp hspne pre [] pos text.length hpl le_rfl hpre
      hpos0 (Or.inl ⟨rfl, rfl⟩) s hs hsn hm
    exact ⟨pos + (s - pre.length), by omega, hmt,
      fun x hx => absurd hx (List.not_mem_nil x)⟩
  | cons r rest ih =>
    intro pre pos hpre hcnt hpos0 hpl hL hLs s hs hm
    obtain ⟨hpa, hab, hbl, hba, hbb, hidbt, hsptxt, hpar⟩ := hL r (List.mem_cons_self _ _)
    have hal : r.1 ≤ text.length := by omega
    have hLrest := fun x hx => hL x (List.mem_cons_of_mem _ hx)
    have hLs' := List.pairwise_cons.mp hLs
    have hrw : pre ++ interleave text pos (r :: rest) =
        pre ++ ((text.take r.1).drop pos ++ '`' ::
          ((r.2.2 ++ ['`']) ++ interleave text r.2.1 rest)) := by
      rw [interleave]
      simp [List.append_assoc]
    rw [hrw] at hm ⊢
    have hseg_len : ((text.take r.1).drop pos).length = r.1 - pos := by
      rw [List.length_drop, List.length_take, min_eq_left hal]
    by_cases hA : s + sp.length ≤ pre.length + (r.1 - pos)
    · right
      have hsn : s - pre.length + sp.length ≤ r.1 - pos := by omega
      have hmt := seg_match_transfer text sp hspne pre
        ('`' :: ((r.2.2 ++ ['`']) ++ interleave text r.2.1 rest)) pos r.1 hpa hal hpre hpos0
        (Or.inr hba) s hs hsn hm
      refine ⟨pos + (s - pre.length), by omega, hmt, ?_⟩
      intro x hx
      rcases List.mem_cons.mp hx with rfl | hx'
      · exact Or.inl (by omega)
      · have hx2 := hLs'.1 x hx'
        exact Or.inl (by omega)
    · by_cases hB : s ≤ pre.length + (r.1 - pos)
      · exact absurd (block_open_char text pre pos r.1 hal _)
          (fun hv => match_contains_backtick hm hspbt hB (by omega) hv)
      · by_cases hC : s + sp.length ≤ pre.length + (r.1 - pos) + 1 + r.2.2.length
        · left
          apply isAlreadyFormatted_of_parity
          have hq : s - (pre.length + (r.1 - pos) + 1) ≤ r.2.2.length := by omega
          have hsplit : (pre ++ ((text.take r.1).drop pos ++ '`' ::
              ((r.2.2 ++ ['`']) ++ interleave text r.2.1 rest))).take s =
              pre ++ ((text.take r.1).drop pos ++ '`' ::
                r.2.2.take (s - (pre.length + (r.1 - pos) + 1))) := by
            have hseq : s = pre.length + ((text.take r.1).drop pos).length + 1 +
                (s - (pre.length + (r.1 - pos) + 1)) := by
              rw [hseg_len]
              omega
            conv_lhs => rw [hseq]
            exact take_block_interior pre _ _ _ _ hq
          rw [hsplit, List.count_append, List.count_append, List.count_cons]
          have hid0 : (r.2.2.take (s - (pre.length + (r.1 - pos) + 1))).count '`' = 0 :=
            List.count_eq_zero.mpr (fun hmem => hidbt _ (List.mem_of_mem_take hmem) rfl)
          have hseg_cnt := count_take_split text '`' pos r.1 hpa
          have hito : (if ('`' : Char) == '`' then 1 else 0 : Nat) = 1 := by decide
          rw [hid0, hito]
          omega
        · by_cases hD : s ≤ pre.length + (r.1 - pos) + 1 + r.2.2.length
          · exfalso
            have hclose : (pre ++ ((text.take r.1).drop pos ++ '`' ::
                ((r.2.2 ++ ['`']) ++ interleave text r.2.1 rest))).getD
                  (pre.length + (r.1 - pos) + 1 + r.2.2.length) ' ' = '`' := by
              rw [block_getD text pre pos r.1 hal _ _]
              rw [List.getD_append _ _ _ _
                (by rw [List.length_append, List.length_singleton]; omega)]
              rw [List.getD_append_right _ _ _ _ le_rfl]
              simp
            exact match_contains_backtick hm hspbt hD (by omega) hclose
          · have hout2 : pre ++ ((text.take r.1).drop pos ++ '`' ::
                ((r.2.2 ++ ['`']) ++ interleave text r.2.1 rest)) =
                (pre ++ ((text.take r.1).drop pos ++ '`' :: (r.2.2 ++ ['`']))) ++
                  interleave text r.2.1 rest := by
              simp [List.append_assoc]
            rw [hout2] at hm ⊢
            have hpre'len : (pre ++ ((text.take r.1).drop pos ++ '`' ::
                (r.2.2 ++ ['`']))).length =
                pre.length + (r.1 - pos) + 1 + r.2.2.length + 1 := by
              simp only [List.length_append, List.length_cons, List.length_singleton,
                List.length_nil, hseg_len]
              omega
            have hpre2 : (pre ++ ((text.take r.1).drop pos ++ '`' :: (r.2.2 ++ ['`']))) =
                (pre ++ ((text.take r.1).drop pos ++ '`' :: r.2.2)) ++ ['`'] := by
              simp [List.append_assoc]
            have hid0 : r.2.2.count '`' = 0 :=
              List.count_eq_zero.mpr (fun hmem => hidbt _ hmem rfl)
            have hcnt' : (pre ++ ((text.take r.1).drop pos ++ '`' ::
                (r.2.2 ++ ['`']))).count '`' % 2 = (text.take r.2.1).count '`' % 2 := by
              have hseg_cnt := count_take_split text '`' pos r.1 hpa
              have hspan_cnt := count_take_split text '`' r.1 r.2.1 (by omega)
              have hspan0 : ((text.take r.2.1).drop r.1).count '`' = 0 :=
                count_backtick_slice_zero hsptxt
              rw [List.count_append, List.count_append, List.count_cons, List.count_append]
              have hito : (if ('`' : Char) == '`' then 1 else 0 : Nat) = 1 := by decide
              have hone : (['`'] : PyStr).count '`' = 1 := by decide
              rw [hid0, hito, hone]
              omega
            have hLrest' : ∀ x ∈ rest, r.2.1 ≤ x.1 ∧ x.1 < x.2.1 ∧ x.2.1 ≤ text.length ∧
                isBoundary text x.1 = true ∧ isBoundary text x.2.1 = true ∧
                (∀ c ∈ x.2.2, c ≠ '`') ∧
                (∀ i, x.1 ≤ i → i < x.2.1 → text.getD i ' ' ≠ '`') ∧
                (text.take x.1).count '`' % 2 = 0 :=
              fun x hx => ⟨hLs'.1 x hx, (hLrest x hx).2⟩
            have ih' := ih (pre ++ ((text.take r.1).drop pos ++ '`' :: (r.2.2 ++ ['`'])))
              r.2.1 (Or.inr ⟨_, hpre2⟩) hcnt' (Or.inr hbb) hbl hLrest' hLs'.2 s
              (by rw [hpre'len]; omega) hm
            rcases ih' with hleft | ⟨s₀, hs₀, hmt, hdisj⟩
            · exact Or.inl hleft
            · right
              refine ⟨s₀, by omega, hmt, ?_⟩
              intro x hx
              rcases List.mem_cons.mp hx with rfl | hx'
              · exact Or.inr (by omega)
              · exact hdisj x hx'

theorem foldl_addReplacement_all_formatted {text : PyStr} :
    ∀ {cands : List Rep},
      (∀ c ∈ cands, isAlreadyFormatted text c.1 c.2.1 = true) →
      cands.foldl (addReplacement text) [] = [] := by
  intro cands
  induction cands with
  | nil =>
    intro h
    rfl
  | cons c cs ih =>
    intro h
    have hc := h c (List.mem_cons_self _ _)
    have hstep : addReplacement text [] c = [] := by
      unfold addReplacement
      rw [if_pos hc]
    rw [List.foldl_cons, hstep]
    exact ih (fun x hx => h x (List.mem_cons_of_mem _ hx))

theorem camelSub1_ne_nil : ∀ {s : PyStr}, s ≠ [] → camelSub1 s ≠ []
  | [], h => absurd rfl h
  | [c], _ => by simp [camelSub1]
  | a :: b :: rest, _ => by
    rw [camelSub1]
    split <;> simp

theorem camelSub2Aux_ne_nil : ∀ (fuel : Nat) {s : PyStr}, s ≠ [] → camelSub2Aux fuel s ≠ [] := by
  intro fuel
  induction fuel with
  | zero =>
    intro s h
    simpa [camelSub2Aux] using h
  | succ f _ =>
    intro s h
    cases s with
    | nil => exact absurd rfl h
    | cons c rest =>
      rw [camelSub2Aux]
      split
      · simp
      · simp

/-- Unfolding of the no-space filter on a cons cell. -/
theorem filter_space_cons (c : Char) (l : PyStr) :
    (c :: l).filter (fun x => x ≠ ' ') =
      if c = ' ' then l.filter (fun x => x ≠ ' ') else c :: l.filter (fun x => x ≠ ' ') := by
  simp only [List.filter_cons]
  by_cases hc : c = ' ' <;> simp [hc]

theorem camelSub1_filter_space :
    ∀ s : PyStr, (camelSub1 s).filter (fun c => c ≠ ' ') = s.filter (fun c => c ≠ ' ')
  | [] => rfl
  | [c] => rfl
  | a :: b :: rest => by
    rw [camelSub1]
    split
    · rw [filter_space_cons a, filter_space_cons ' ', if_pos rfl, filter_space_cons b,
        camelSub1_filter_space rest, filter_space_cons a, filter_space_cons b]
    · rw [filter_space_cons a, camelSub1_filter_space (b :: rest), filter_space_cons a]

theorem camelSub2Aux_filter_space :
    ∀ (fuel : Nat) (s : PyStr),
      (camelSub2Aux fuel s).filter (fun c => c ≠ ' ') = s.filter (fun c => c ≠ ' ') := by
  intro fuel
  induction fuel with
  | zero =>
    intro s
    rfl
  | succ f ih =>
    intro s
    cases s with
    | nil => simp [camelSub2Aux, upperRunLen]
    | cons c rest =>
      rw [camelSub2Aux]
      split
      · rename_i hcond
        obtain ⟨h2, hlt, hlow⟩ := hcond
        have hdd : ((c :: rest).drop (upperRunLen (c :: rest) - 1)).drop 2 =
            (c :: rest).drop (upperRunLen (c :: rest) + 1) := by
          rw [List.drop_drop]
          congr 1
          omega
        have hdecomp : (c :: rest).take (upperRunLen (c :: rest) - 1) ++
            (((c :: rest).drop (upperRunLen (c :: rest) - 1)).take 2 ++
              (c :: rest).drop (upperRunLen (c :: rest) + 1)) = c :: rest := by
          rw [← hdd, List.take_append_drop, List.take_append_drop]
        rw [List.filter_append, filter_space_cons ' ', if_pos rfl, List.filter_append, ih]
        conv_rhs => rw [← hdecomp]
        rw [List.filter_append, List.filter_append]
      · rw [filter_space_cons c, ih rest, filter_space_cons c]

theorem camelSub1_of_no_lower :
    ∀ {s : PyStr}, (∀ c ∈ s, c.isLower = false) → camelSub1 s = s
  | [], _ => rfl
  | [c], _ => rfl
  | a :: b :: rest, h => by
    have ha := h a (List.mem_cons_self a _)
    rw [camelSub1, if_neg]
    · have := camelSub1_of_no_lower (fun c hc => h c (List.mem_cons_of_mem _ hc))
      rw [this]
    · simp [ha]

theorem upperRunLen_eq_zero {s : PyStr} (h : ∀ c ∈ s, c.isUpper = false) :
    upperRunLen s = 0 := by
  cases s with
  | nil => rfl
  | cons c rest =>
    have := h c (List.mem_cons_self c _)
    simp [upperRunLen, this]

theorem camelSub2Aux_of_no_upper :
    ∀ (fuel : Nat) {s : PyStr}, (∀ c ∈ s, c.isUpper = false) → camelSub2Aux fuel s = s := by
  intro fuel
  induction fuel with
  | zero =>
    intro s _
    rfl
  | succ f ih =>
    intro s h
    cases s with
    | nil => simp [camelSub2Aux, upperRunLen]
    | cons c rest =>
      rw [camelSub2Aux, if_neg]
      · rw [ih (fun x hx => h x (List.mem_cons_of_mem _ hx))]
      · rw [upperRunLen_eq_zero h]
        simp

theorem spaced_filter_space (idf : PyStr) :
    (camelSub2 (camelSub1 idf)).filter (fun c => c ≠ ' ') = idf.filter (fun c => c ≠ ' ') := by
  unfold camelSub2
  rw [camelSub2Aux_filter_space, camelSub1_filter_space]

theorem spaced_eq_of_all_space {idf : PyStr} (h : idf.filter (fun c => c ≠ ' ') = []) :
    camelSub2 (camelSub1 idf) = idf := by
  have hall : ∀ c ∈ idf, c = ' ' := by
    intro c hc
    by_contra hne
    have hmem : c ∈ idf.filter (fun c => c ≠ ' ') := List.mem_filter.mpr ⟨hc, by simp [hne]⟩
    rw [h] at hmem
    exact absurd hmem (List.not_mem_nil c)
  have h1 : camelSub1 idf = idf :=
    camelSub1_of_no_lower (fun c hc => by rw [hall c hc]; decide)
  rw [h1]
  exact camelSub2Aux_of_no_upper _ (fun c hc => by rw [hall c hc]; decide)

theorem dedupByLowerAux_subset {x : PyStr} :
    ∀ {l seen : List PyStr}, x ∈ dedupByLowerAux l seen → x ∈ l
  | [], _, h => absurd h (List.not_mem_nil x)
  | f :: rest, seen, h => by
    rw [dedupByLowerAux] at h
    split at h
    · exact List.mem_cons_of_mem _ (dedupByLowerAux_subset h)
    · rcases List.mem_cons.mp h with h1 | h1
      · exact h1 ▸ List.mem_cons_self _ _
      · exact List.mem_cons_of_mem _ (dedupByLowerAux_subset h1)

theorem generateSpokenForms_ne_nil {idf : PyStr} (h : ∃ c ∈ idf, c ≠ '_') :
    ∀ sp ∈ generateSpokenForms idf, sp ≠ [] := by
  obtain ⟨c0, hc0, hc0ne⟩ := h
  have hne : idf ≠ [] := List.ne_nil_of_mem hc0
  have hspaced : camelSub2 (camelSub1 idf) ≠ [] :=
    camelSub2Aux_ne_nil _ (camelSub1_ne_nil hne)
  have hmap : idf.map (fun c => if c = '_' then ' ' else c) ≠ [] := by
    simpa using hne
  have hfilterU : idf.filter (fun c => c ≠ '_') ≠ [] :=
    List.ne_nil_of_mem (List.mem_filter.mpr ⟨hc0, by simp [hc0ne]⟩)
  have hlow : pyLower (camelSub2 (camelSub1 idf)) ≠ [] := by
    simpa [pyLower] using hspaced
  intro sp hsp
  simp only [generateSpokenForms, dedupByLower] at hsp
  have hsp' := dedupByLowerAux_subset hsp
  by_cases hd : camelSub2 (camelSub1 idf) ≠ idf
  · rw [if_pos hd] at hsp'
    by_cases hc : idf.contains '_' = true
    · rw [if_pos hc] at hsp'
      simp only [List.cons_append, List.nil_append, List.mem_append, List.mem_cons,
        List.mem_singleton, List.not_mem_nil, or_false] at hsp'
      rcases hsp' with rfl | rfl | rfl | rfl | rfl | rfl
      · exact hne
      · exact hmap
      · exact hfilterU
      · exact hspaced
      · intro hcon
        apply hd
        apply spaced_eq_of_all_space
        rw [← spaced_filter_space idf]
        exact hcon
      · exact hlow
    · rw [if_neg hc] at hsp'
      simp only [List.cons_append, List.nil_append, List.mem_append, List.mem_cons,
        List.mem_singleton, List.not_mem_nil, or_false] at hsp'
      rcases hsp' with rfl | rfl | rfl | rfl
      · exact hne
      · exact hspaced
      · intro hcon
        apply hd
        apply spaced_eq_of_all_space
        rw [← spaced_filter_space idf]
        exact hcon
      · exact hlow
  · rw [if_neg hd] at hsp'
    by_cases hc : idf.contains '_' = true
    · rw [if_pos hc] at hsp'
      simp only [List.cons_append, List.nil_append, List.mem_append, List.mem_cons,
        List.mem_singleton, List.not_mem_nil, or_false] at hsp'
      rcases hsp' with rfl | rfl | rfl | rfl
      · exact hne
      · exact hmap
      · exact hfilterU
      · exact hlow
    · rw [if_neg hc] at hsp'
      simp only [List.mem_append, List.mem_singleton, List.mem_cons, List.not_mem_nil,
        or_false] at hsp'
      rcases hsp' with rfl | rfl
      · exact hne
      · exact hlow

theorem generateSpokenForms_no_backtick {idf : PyStr} (hid : ∀ c ∈ idf, c ≠ '`') :
    ∀ sp ∈ generateSpokenForms idf, ∀ c ∈ sp, c ≠ '`' := by
  have hmap : ∀ c ∈ idf.map (fun c => if c = '_' then ' ' else c), c ≠ '`' := by
    intro c hc
    rcases List.mem_map.mp hc with ⟨d, hd, rfl⟩
    by_cases hdu : d = '_'
    · simp [hdu]
    · simpa [hdu] using hid d hd
  have hfil : ∀ c ∈ idf.filter (fun c => c ≠ '_'), c ≠ '`' :=
    fun c hc => hid c (List.mem_of_mem_filter hc)
  have hspc := spaced_no_backtick hid
  have hspcf : ∀ c ∈ (camelSub2 (camelSub1 idf)).filter (fun c => c ≠ ' '), c ≠ '`' :=
    fun c hc => hspc c (List.mem_of_mem_filter hc)
  have hlow : ∀ c ∈ pyLower (camelSub2 (camelSub1 idf)), c ≠ '`' := by
    intro c hc
    rcases List.mem_map.mp hc with ⟨d, hd, rfl⟩
    exact pyLowerChar_ne_backtick d (hspc d hd)
  intro sp hsp
  simp only [generateSpokenForms, dedupByLower] at hsp
  have hsp' := dedupByLowerAux_subset hsp
  by_cases hd : camelSub2 (camelSub1 idf) ≠ idf
  · rw [if_pos hd] at hsp'
    by_cases hc : idf.contains '_' = true
    · rw [if_pos hc] at hsp'
      simp only [List.cons_append, List.nil_append, List.mem_append, List.mem_cons,
        List.mem_singleton, List.not_mem_nil, or_false] at hsp'
      rcases hsp' with rfl | rfl | rfl | rfl | rfl | rfl
      · exact hid
      · exact hmap
      · exact hfil
      · exact hspc
      · exact hspcf
      · exact hlow
    · rw [if_neg hc] at hsp'
      simp only [List.cons_append, List.nil_append, List.mem_append, List.mem_cons,
        List.mem_singleton, List.not_mem_nil, or_false] at hsp'
      rcases hsp' with rfl | rfl | rfl | rfl
      · exact hid
      · exact hspc
      · exact hspcf
      · exact hlow
  · rw [if_neg hd] at hsp'
    by_cases hc : idf.contains '_' = true
    · rw [if_pos hc] at hsp'
      simp only [List.cons_append, List.nil_append, List.mem_append, List.mem_cons,
        List.mem_singleton, List.not_mem_nil, or_false] at hsp'
      rcases hsp' with rfl | rfl | rfl | rfl
      · exact hid
      · exact hmap
      · exact hfil
      · exact hlow
    · rw [if_neg hc] at hsp'
      simp only [List.mem_append, List.mem_singleton, List.mem_cons, List.not_mem_nil,
        or_false] at hsp'
      rcases hsp' with rfl | rfl
      · exact hid
      · exact hlow

theorem buildReplacements_bounds {text : PyStr} {ids : List PyStr}
    (h : ∀ idf ∈ ids, ∃ c ∈ idf, c ≠ '_') :
    ∀ r ∈ buildReplacements text ids, r.1 < r.2.1 ∧ r.2.1 ≤ text.length := by
  intro r hr
  rcases mem_foldl_addReplacement hr with h0 | h0
  · exact absurd h0 (List.not_mem_nil r)
  · rcases candidateTriples_mem h0 with ⟨idf, hidf, sp, hsp, hfi⟩
    have hidf' : idf ∈ ids := (sortDescBy_perm (fun i => i.length) ids).mem_iff.mp hidf
    have hspne : sp ≠ [] := generateSpokenForms_ne_nil (h idf hidf') sp hsp
    have hm := finditerAux_mem hfi
    have hb := formatterMatchAt_some hm.1 hm.2
    have hlen : 0 < sp.length := List.length_pos.mpr hspne
    exact ⟨by omega, hb.2⟩

theorem sorted_key_sep_strong {l : List Rep}
    (hd : l.Pairwise (fun a b => b.1 ≤ a.1)) (hs : l.Pairwise sepRel)
    (hne : ∀ r ∈ l, r.1 < r.2.1) :
    l.Pairwise (fun a b => b.2.1 ≤ a.1) := by
  have hand := hd.and hs
  refine List.Pairwise.imp_of_mem ?_ hand
  intro a b ha hb hab
  rcases hab with ⟨h1, h2⟩
  unfold sepRel at h2
  have hna := hne a ha
  rcases h2 with h3 | h3
  · exact h3
  · omega

theorem foldl_applyOne_append :
    ∀ (ds : List Rep) (A B : PyStr),
      (∀ r ∈ ds, r.1 ≤ r.2.1 ∧ r.2.1 ≤ A.length) →
      ds.Pairwise (fun a b => b.2.1 ≤ a.1) →
      ds.foldl applyOne (A ++ B) = ds.foldl applyOne A ++ B := by
  intro ds
  induction ds with
  | nil =>
    intro A B _ _
    rfl
  | cons d rest ih =>
    intro A B hb hp
    have hd := hb d (List.mem_cons_self d rest)
    have h1 : applyOne (A ++ B) d = applyOne A d ++ B := by
      unfold applyOne
      rw [List.take_append_of_le_length (by omega),
          List.drop_append_of_le_length (by omega)]
      simp
    rw [List.foldl_cons, List.foldl_cons, h1]
    have hlen : d.1 ≤ (applyOne A d).length := by
      unfold applyOne
      simp only [List.length_append, List.length_take, List.length_cons, List.length_drop]
      omega
    apply ih
    · intro r hr
      have hsep := (List.pairwise_cons.mp hp).1 r hr
      have := hb r (List.mem_cons_of_mem _ hr)
      exact ⟨this.1, le_trans hsep hlen⟩
    · exact (List.pairwise_cons.mp hp).2

theorem interleave_snoc (text : PyStr) (d : Rep) :
    ∀ (l : List Rep) (pos : Nat),
      (∀ r ∈ l, r.2.1 ≤ d.1 ∧ r.1 ≤ r.2.1) →
      interleave text pos (l ++ [d]) =
        interleave (text.take d.1) pos l ++ '`' :: (d.2.2 ++ ['`']) ++ text.drop d.2.1 := by
  intro l
  induction l with
  | nil =>
    intro pos _
    simp [interleave]
  | cons r l' ih =>
    intro pos hl
    have hr := hl r (List.mem_cons_self r l')
    have htt : (text.take d.1).take r.1 = text.take r.1 := by
      rw [List.take_take]
      congr 1
      omega
    rw [List.cons_append]
    rw [interleave, ih r.2.1 (fun x hx => hl x (List.mem_cons_of_mem _ hx)), interleave, htt]
    simp [List.append_assoc]

theorem foldl_applyOne_eq_interleave :
    ∀ (ds : List Rep) (text : PyStr),
      ds.Pairwise (fun a b => b.2.1 ≤ a.1) →
      (∀ r ∈ ds, r.1 ≤ r.2.1 ∧ r.2.1 ≤ text.length) →
      ds.foldl applyOne text = interleave text 0 ds.reverse := by
  intro ds
  induction ds with
  | nil =>
    intro text _ _
    simp [interleave]
  | cons d rest ih =>
    intro text hp hb
    have hd := hb d (List.mem_cons_self d rest)
    have hpc := List.pairwise_cons.mp hp
    have hAlen : (text.take d.1).length = d.1 := by
      rw [List.length_take]
      omega
    have hrest : ∀ r ∈ rest, r.1 ≤ r.2.1 ∧ r.2.1 ≤ (text.take d.1).length := by
      intro r hr
      have h1 := hpc.1 r hr
      have h2 := hb r (List.mem_cons_of_mem _ hr)
      rw [hAlen]
      exact ⟨h2.1, h1⟩
    have happly : applyOne text d =
        text.take d.1 ++ ('`' :: (d.2.2 ++ ['`']) ++ text.drop d.2.1) := by
      unfold applyOne
      simp
    rw [List.foldl_cons, happly,
      foldl_applyOne_append rest (text.take d.1) _ hrest hpc.2,
      ih (text.take d.1) hpc.2 hrest]
    rw [List.reverse_cons,
      interleave_snoc text d rest.reverse 0
        (fun r hr => by
          have hm := List.mem_reverse.mp hr
          exact ⟨hpc.1 r hm, (hb r (List.mem_cons_of_mem _ hm)).1⟩)]
    simp

theorem finditerLit_nil (sp : PyStr) : finditerLit [] sp = [] := rfl

theorem candidateTriples_nil (sids : List PyStr) : candidateTriples [] sids = [] := by
  unfold candidateTriples
  induction sids with
  | nil => rfl
  | cons a l ih =>
    rw [List.flatMap_cons, ih, List.append_nil]
    have : ∀ fs : List PyStr,
        (fs.flatMap (fun sp => (finditerLit [] sp).map (fun pr => (pr.1, pr.2, a)))) = [] := by
      intro fs
      induction fs with
      | nil => rfl
      | cons f fs ihf => rw [List.flatMap_cons, ihf, finditerLit_nil, List.map_nil, List.nil_append]
    exact this _

/-- C2 counterexample: with the all-underscore identifier `"__"` one spoken
form is the empty string, whose pattern matches zero-width at every word
boundary; the resulting empty spans make the back-to-front application
garble earlier insertions, so the output is not the frame rendering of the
accepted spans (`format("ab", ["__", "ab"])` yields ``"`ab`_`ab`__`"``). -/
theorem format_frame_counterexample :
    formatWithCodeIdentifiers ("ab".data) [("__".data), ("ab".data)] ≠
      interleave ("ab".data) 0
        ((sortDescBy (fun r => r.1)
          (buildReplacements ("ab".data) [("__".data), ("ab".data)])).reverse) := by
  decide

theorem format_eq_interleave (text : PyStr) (ids : List PyStr)
    (h : ∀ idf ∈ ids, ∃ c ∈ idf, c ≠ '_') :
    formatWithCodeIdentifiers text ids =
      interleave text 0 ((sortDescBy (fun r => r.1) (buildReplacements text ids)).reverse) := by
  unfold formatWithCodeIdentifiers
  by_cases hg : text = [] ∨ ids = []
  · rw [if_pos hg]
    rcases hg with hg | hg
    · subst hg
      have hb : buildReplacements [] ids = [] := by
        unfold buildReplacements
        rw [candidateTriples_nil]
        rfl
      rw [hb]
      rfl
    · subst hg
      have hb : buildReplacements text [] = [] := by
        unfold buildReplacements
        rfl
      rw [hb]
      simp [sortDescBy, interleave]
  · rw [if_neg hg]
    have hbounds : ∀ r ∈ buildReplacements text ids, r.1 < r.2.1 ∧ r.2.1 ≤ text.length :=
      buildReplacements_bounds h
    have hsorted := sortDescBy_sorted (fun r : Rep => r.1) (buildReplacements text ids)
    have hperm := sortDescBy_perm (fun r : Rep => r.1) (buildReplacements text ids)
    have hsep : (sortDescBy (fun r : Rep => r.1) (buildReplacements text ids)).Pairwise sepRel := by
      refine (List.Perm.pairwise_iff ?_ hperm).mpr (buildReplacements_pairwise_sep text ids)
      intro a b hab
      unfold sepRel at hab ⊢
      tauto
    have hbounds' : ∀ r ∈ sortDescBy (fun r : Rep => r.1) (buildReplacements text ids),
        r.1 < r.2.1 ∧ r.2.1 ≤ text.length := fun r hr => hbounds r (hperm.mem_iff.mp hr)
    apply foldl_applyOne_eq_interleave
    · exact sorted_key_sep_strong hsorted hsep (fun r hr => (hbounds' r hr).1)
    · exact fun r hr => ⟨le_of_lt (hbounds' r hr).1, (hbounds' r hr).2⟩

theorem second_pass_suppressed {text : PyStr} {ids : List PyStr}
    (hbt : ∀ idf ∈ ids, ∀ c ∈ idf, c ≠ '`')
    (hus : ∀ idf ∈ ids, ∃ c ∈ idf, c ≠ '_')
    (hacc : ∀ c ∈ candidateTriples text (sortDescBy (fun i => i.length) ids),
      c ∈ buildReplacements text ids) :
    ∀ c ∈ candidateTriples (formatWithCodeIdentifiers text ids)
        (sortDescBy (fun i => i.length) ids),
      isAlreadyFormatted (formatWithCodeIdentifiers text ids) c.1 c.2.1 = true := by
  intro c hc
  rcases candidateTriples_mem_full hc with ⟨idf, hidf, sp, hsp, hfi, hcid⟩
  have hidf' : idf ∈ ids := (sortDescBy_perm (fun i => i.length) ids).mem_iff.mp hidf
  have hspne : sp ≠ [] := generateSpokenForms_ne_nil (hus idf hidf') sp hsp
  have hspbt : ∀ ch ∈ sp, ch ≠ '`' := generateSpokenForms_no_backtick (hbt idf hidf') sp hsp
  have hn : 0 < sp.length := List.length_pos.mpr hspne
  have hm0 := (finditerAux_mem hfi).1
  dsimp only at hm0
  have he := (formatterMatchAt_eq hm0).1
  have hfr := format_eq_interleave text ids hus
  have hmemL : ∀ x : Rep,
      x ∈ (sortDescBy (fun r : Rep => r.1) (buildReplacements text ids)).reverse ↔
        x ∈ buildReplacements text ids := by
    intro x
    rw [List.mem_reverse]
    exact (sortDescBy_perm _ _).mem_iff
  have hbounds : ∀ x ∈ buildReplacements text ids, x.1 < x.2.1 ∧ x.2.1 ≤ text.length :=
    buildReplacements_bounds hus
  have hspanfacts : ∀ x ∈ buildReplacements text ids,
      isBoundary text x.1 = true ∧ isBoundary text x.2.1 = true ∧
      (∀ ch ∈ x.2.2, ch ≠ '`') ∧ (∀ i, x.1 ≤ i → i < x.2.1 → text.getD i ' ' ≠ '`') := by
    intro x hx
    rcases mem_foldl_addReplacement hx with h0 | h0
    · exact absurd h0 (List.not_mem_nil x)
    rcases candidateTriples_mem_full h0 with ⟨idf2, hidf2, sp2, hsp2, hfi2, hcid2⟩
    have hidf2' : idf2 ∈ ids := (sortDescBy_perm (fun i => i.length) ids).mem_iff.mp hidf2
    have hsp2bt : ∀ ch ∈ sp2, ch ≠ '`' :=
      generateSpokenForms_no_backtick (hbt idf2 hidf2') sp2 hsp2
    have hm2 := (finditerAux_mem hfi2).1
    dsimp only at hm2
    have hq2 := formatterMatchAt_eq hm2
    rw [hq2.1] at hm2
    refine ⟨hq2.2.1, ?_, ?_, ?_⟩
    · rw [hq2.1]
      exact hq2.2.2.2
    · rw [hcid2]
      exact hbt idf2 hidf2'
    · intro i hi1 hi2 hv
      rw [hq2.1] at hi2
      exact match_contains_backtick hm2 hsp2bt hi1 hi2 hv
  have hparfacts : ∀ x ∈ buildReplacements text ids, (text.take x.1).count '`' % 2 = 0 := by
    intro x hx
    rcases foldl_addReplacement_not_formatted hx with h0 | h0
    · exact absurd h0 (List.not_mem_nil x)
    · exact parity_even_of_not_formatted h0
  have hLsorted : ((sortDescBy (fun r : Rep => r.1) (buildReplacements text ids)).reverse).Pairwise
      (fun x y : Rep => x.2.1 ≤ y.1) := by
    rw [List.pairwise_reverse]
    apply sorted_key_sep_strong (sortDescBy_sorted _ _)
    · refine (List.Perm.pairwise_iff ?_ (sortDescBy_perm _ _)).mpr
        (buildReplacements_pairwise_sep text ids)
      intro a b hab
      unfold sepRel at hab ⊢
      tauto
    · intro x hx
      exact (hbounds x ((sortDescBy_perm _ _).mem_iff.mp hx)).1
  have hm1 : formatterMatchAt
      ([] ++ interleave text 0
        ((sortDescBy (fun r : Rep => r.1) (buildReplacements text ids)).reverse)) sp c.1 =
      some (c.1 + sp.length) := by
    rw [List.nil_append, ← hfr, ← he]
    exact hm0
  have hmain := interleave_match_suppressed text sp hspne hspbt
    ((sortDescBy (fun r : Rep => r.1) (buildReplacements text ids)).reverse) [] 0
    (Or.inl rfl) (by simp) (Or.inl rfl) (Nat.zero_le _)
    (fun x hx => by
      have hxR := (hmemL x).mp hx
      obtain ⟨hb1, hb2⟩ := hbounds x hxR
      obtain ⟨hf1, hf2, hf3, hf4⟩ := hspanfacts x hxR
      exact ⟨Nat.zero_le _, hb1, hb2, hf1, hf2, hf3, hf4, hparfacts x hxR⟩)
    hLsorted c.1 (Nat.zero_le _) hm1
  rcases hmain with hleft | ⟨s₀, _, hmt, hdisj⟩
  · rw [List.nil_append, ← hfr] at hleft
    rw [he]
    exact hleft
  · exfalso
    have hs₀len : s₀ ≤ text.length := by
      have := formatterMatchAt_span hmt hspne
      omega
    have hposf : ∀ p e, formatterMatchAt text sp p = some e → p < e := by
      intro p e hpe
      have := (formatterMatchAt_eq hpe).1
      omega
    rcases finditerAux_complete hposf (text.length + 2) 0 s₀ (s₀ + sp.length) hmt
        (Nat.zero_le _) hs₀len (by omega) with hrep | ⟨pr, hpr, hpr1, hpr2⟩
    · have hfi0 : ((s₀, s₀ + sp.length) : Nat × Nat) ∈ finditerLit text sp := hrep
      have hcand := candidateTriples_mem_intro hidf hsp hfi0
      have hinL := (hmemL _).mpr (hacc _ hcand)
      rcases hdisj _ hinL with h1 | h1
      · simp only at h1
        omega
      · simp only at h1
        omega
    · have hfi0 : pr ∈ finditerLit text sp := hpr
      have hcand := candidateTriples_mem_intro hidf hsp hfi0
      have hinL := (hmemL _).mpr (hacc _ hcand)
      rcases hdisj _ hinL with h1 | h1
      · simp only at h1
        omega
      · simp only at h1
        omega

/-- C2 amended: whenever every identifier contains some character other than
`_` (so no spoken form is empty and every accepted span is non-empty), the
output of `format_with_code_identifiers` is exactly the frame rendering of
the accepted spans: text outside the spans is byte-identical to the input,
and each span contributes a backtick, the caller-cased identifier, and a
backtick. -/
theorem format_frame (text : PyStr) (ids : List PyStr)
    (h : ∀ idf ∈ ids, ∃ c ∈ idf, c ≠ '_') :
    formatWithCodeIdentifiers text ids =
      interleave text 0 ((sortDescBy (fun r => r.1) (buildReplacements text ids)).reverse) :=
  format_eq_interleave text ids h

/-- C2 amended witness: a concrete frame decomposition. -/
theorem format_frame_witness :
    (∀ idf ∈ [("cd".data)], ∃ c ∈ idf, c ≠ '_') ∧
      formatWithCodeIdentifiers ("ab cd".data) [("cd".data)] =
        interleave ("ab cd".data) 0
          ((sortDescBy (fun r => r.1) (buildReplacements ("ab cd".data) [("cd".data)])).reverse) :=
  ⟨by decide, format_frame _ _ (by decide)⟩

/-- C3: longest-match preference, at the spec's exemplar: the longer
identifier `clearPasteboardData` is scanned first and claims
`clear pasteboard data`, blocking `clearPasteboard` and the first `clear`,
while the second `clear` is still wrapped. -/
theorem format_longest_match_example :
    formatWithCodeIdentifiers ("use clear pasteboard data to clear the clipboard".data)
      [("clearPasteboardData".data), ("clearPasteboard".data), ("clear".data)] =
      "use `clearPasteboardData` to `clear` the clipboard".data := by
  decide

/-- C4 counterexample: `format` is not idempotent.  In
`"/ abcd eeeeeeeeeeee xy eeeeeee/"` the occurrence of `xy` sits within 20
characters of both slashes, so the first pass suppresses it (URL/path
heuristic) while wrapping `abcd`; the inserted backticks push the leading
slash out of the ±20 window, so a second pass wraps `xy` as well. -/
theorem format_not_idempotent :
    formatWithCodeIdentifiers
        (formatWithCodeIdentifiers ("/ abcd eeeeeeeeeeee xy eeeeeee/".data)
          [("abcd".data), ("xy".data)])
        [("abcd".data), ("xy".data)] ≠
      formatWithCodeIdentifiers ("/ abcd eeeeeeeeeeee xy eeeeeee/".data)
        [("abcd".data), ("xy".data)] := by
  decide

/-- C4 amended: `format` is idempotent whenever (a) no identifier contains a
backtick, (b) every identifier has some non-underscore character, and (c) the
first pass accepted every candidate occurrence into its replacement list (no
candidate was rejected by `_is_already_formatted` or by the overlap check).
Then every second-pass match falls either inside an inserted block — where
the opening backtick makes the backtick-parity heuristic reject it — or on
unchanged text, where it would contradict the first pass having accepted
every candidate; so the second pass inserts nothing.  Each hypothesis is
necessary: `format_not_idempotent` (the registered counterexample) breaks (c)
through the URL-window heuristic, `format_overlap_rejection_not_idempotent`
breaks (c) through the overlap check on slash- quote- and backtick-free
input, and `format_backtick_identifier_not_idempotent` breaks only (a). -/
theorem format_idempotent_amended (text : PyStr) (ids : List PyStr)
    (hbt : ∀ idf ∈ ids, ∀ c ∈ idf, c ≠ '`')
    (hus : ∀ idf ∈ ids, ∃ c ∈ idf, c ≠ '_')
    (hacc : ∀ c ∈ candidateTriples text (sortDescBy (fun i => i.length) ids),
      c ∈ buildReplacements text ids) :
    formatWithCodeIdentifiers (formatWithCodeIdentifiers text ids) ids =
      formatWithCodeIdentifiers text ids := by
  have hsup := second_pass_suppressed hbt hus hacc
  have hnil : buildReplacements (formatWithCodeIdentifiers text ids) ids = [] := by
    unfold buildReplacements
    exact foldl_addReplacement_all_formatted hsup
  have hunf : ∀ (t : PyStr) (l : List PyStr), formatWithCodeIdentifiers t l =
      if t = [] ∨ l = [] then t
      else (sortDescBy (fun r => r.1) (buildReplacements t l)).foldl applyOne t :=
    fun _ _ => rfl
  rw [hunf (formatWithCodeIdentifiers text ids) ids]
  by_cases hg : formatWithCodeIdentifiers text ids = [] ∨ ids = []
  · rw [if_pos hg]
  · rw [if_neg hg, hnil]
    rfl

/-- C4 amended witness: on "reset the state then reset again" with the single
identifier "reset", both occurrences are accepted (no rejection of any kind),
and a second pass leaves the output unchanged. -/
theorem format_idempotent_amended_witness :
    (∀ idf ∈ [("reset".data)], ∀ c ∈ idf, c ≠ '`') ∧
      (∀ idf ∈ [("reset".data)], ∃ c ∈ idf, c ≠ '_') ∧
      (∀ c ∈ candidateTriples ("reset the state then reset again".data)
          (sortDescBy (fun i => i.length) [("reset".data)]),
        c ∈ buildReplacements ("reset the state then reset again".data) [("reset".data)]) ∧
      formatWithCodeIdentifiers
          (formatWithCodeIdentifiers ("reset the state then reset again".data)
            [("reset".data)]) [("reset".data)] =
        formatWithCodeIdentifiers ("reset the state then reset again".data)
          [("reset".data)] :=
  ⟨by decide, by decide, by decide,
    format_idempotent_amended _ _ (by decide) (by decide) (by decide)⟩

/-- The candidate-acceptance hypothesis of the amended idempotence theorem is
necessary even on slash-, quote- and backtick-free input: on "b a a a" with
identifiers ["b_a", "a_a"], the spoken form "a a" of "a_a" matches at [2,5)
overlapping the accepted span [0,3) of "b_a" and is rejected; that reported
occurrence shadows the occurrence at [4,7) inside `re.finditer`, so the first
pass never sees it — but in the second pass the text before it has been
rewritten and the occurrence is reported and wrapped. -/
theorem format_overlap_rejection_not_idempotent :
    (∀ c ∈ ("b a a a".data), c ≠ '/' ∧ c ≠ '\\' ∧ c ≠ '`' ∧ c ≠ '"' ∧ c ≠ '\'') ∧
      formatWithCodeIdentifiers
          (formatWithCodeIdentifiers ("b a a a".data) [("b_a".data), ("a_a".data)])
          [("b_a".data), ("a_a".data)] ≠
        formatWithCodeIdentifiers ("b a a a".data) [("b_a".data), ("a_a".data)] := by
  decide

/-- The backtick-free-identifier hypothesis of the amended idempotence
theorem is necessary: with the identifier "_`" every first-pass candidate is
accepted, yet the inserted backticks interact with the identifier backtick
and a second pass changes the output again. -/
theorem format_backtick_identifier_not_idempotent :
    (∀ c ∈ candidateTriples ("a`A".data) (sortDescBy (fun i => i.length) [("_`".data)]),
        c ∈ buildReplacements ("a`A".data) [("_`".data)]) ∧
      (∀ idf ∈ [("_`".data)], ∃ c ∈ idf, c ≠ '_') ∧
      formatWithCodeIdentifiers
          (formatWithCodeIdentifiers ("a`A".data) [("_`".data)]) [("_`".data)] ≠
        formatWithCodeIdentifiers ("a`A".data) [("_`".data)] := by
  decide

/-! Claims C5 and C6, the extractor. -/
theorem mem_addIdent {s x : PyStr} {acc : List PyStr} (h : s ∈ addIdent acc x) :
    s ∈ acc ∨ s = x := by
  unfold addIdent at h
  by_cases hc : acc.contains x
  · rw [if_pos hc] at h
    exact Or.inl h
  · rw [if_neg hc] at h
    rcases List.mem_append.mp h with h1 | h1
    · exact Or.inl h1
    · exact Or.inr (List.mem_singleton.mp h1)

theorem mem_addIfValid {s x : PyStr} {acc : List PyStr} (h : s ∈ addIfValid acc x) :
    s ∈ acc ∨ isValidCandidate s = true := by
  unfold addIfValid at h
  by_cases hv : isValidCandidate x = true
  · rw [if_pos hv] at h
    rcases mem_addIdent h with h1 | h1
    · exact Or.inl h1
    · subst h1
      exact Or.inr hv
  · rw [if_neg hv] at h
    exact Or.inl h

theorem mem_foldl_addIfValid {s : PyStr} :
    ∀ {l acc : List PyStr}, s ∈ l.foldl addIfValid acc →
      s ∈ acc ∨ isValidCandidate s = true := by
  intro l
  induction l with
  | nil =>
    intro acc h
    exact Or.inl h
  | cons x xs ih =>
    intro acc h
    rw [List.foldl_cons] at h
    rcases ih h with h1 | h1
    · exact mem_addIfValid h1
    · exact Or.inr h1

theorem mem_foldl_addIdent {s : PyStr} :
    ∀ {l acc : List PyStr}, s ∈ l.foldl addIdent acc → s ∈ acc ∨ s ∈ l := by
  intro l
  induction l with
  | nil =>
    intro acc h
    exact Or.inl h
  | cons x xs ih =>
    intro acc h
    rw [List.foldl_cons] at h
    rcases ih h with h1 | h1
    · rcases mem_addIdent h1 with h2 | h2
      · exact Or.inl h2
      · exact Or.inr (h2 ▸ List.mem_cons_self x xs)
    · exact Or.inr (List.mem_cons_of_mem _ h1)

theorem mem_foldl_nsStep {s : PyStr} :
    ∀ {l : List (PyStr × PyStr)} {acc : List PyStr},
      s ∈ l.foldl (fun acc pr =>
        addIdent (addIfValid (addIfValid acc pr.1) pr.2) (pr.1 ++ '.' :: pr.2)) acc →
      s ∈ acc ∨ isValidCandidate s = true ∨ ∃ pr ∈ l, s = pr.1 ++ '.' :: pr.2 := by
  intro l
  induction l with
  | nil =>
    intro acc h
    exact Or.inl h
  | cons x xs ih =>
    intro acc h
    rw [List.foldl_cons] at h
    rcases ih h with h1 | h1 | ⟨pr, hpr, hs⟩
    · rcases mem_addIdent h1 with h2 | h2
      · rcases mem_addIfValid h2 with h3 | h3
        · rcases mem_addIfValid h3 with h4 | h4
          · exact Or.inl h4
          · exact Or.inr (Or.inl h4)
        · exact Or.inr (Or.inl h3)
      · exact Or.inr (Or.inr ⟨x, List.mem_cons_self x xs, h2⟩)
    · exact Or.inr (Or.inl h1)
    · exact Or.inr (Or.inr ⟨pr, List.mem_cons_of_mem _ hpr, hs⟩)

theorem substringOf_single :
    ∀ (text : PyStr) (p : Nat), p < text.length →
      substringOf text p (p + 1) = [text.getD p ' '] := by
  intro text
  induction text with
  | nil =>
    intro p h
    simp at h
  | cons c tl ih =>
    intro p h
    cases p with
    | zero => simp [substringOf]
    | succ q =>
      have hq : q < tl.length := by simpa using h
      have := ih q hq
      simpa [substringOf, List.take_succ_cons, List.drop_succ_cons] using this

theorem singleUpper_shape {text s : PyStr}
    (h : s ∈ patternMatches singleUpperMatchAt text) :
    ∃ c, s = [c] ∧ c.isUpper = true := by
  unfold patternMatches at h
  rcases List.mem_map.mp h with ⟨pr, hpr, hs⟩
  have hm := (finditerAux_mem hpr).1
  unfold singleUpperMatchAt at hm
  by_cases hc : (isBoundary text pr.1 && charTest Char.isUpper text pr.1
      && isBoundary text (pr.1 + 1)) = true
  · rw [if_pos hc] at hm
    have he : pr.2 = pr.1 + 1 := (Option.some.inj hm).symm
    have hct : charTest Char.isUpper text pr.1 = true := by
      rw [Bool.and_eq_true, Bool.and_eq_true] at hc
      exact hc.1.2
    unfold charTest at hct
    rw [Bool.and_eq_true, decide_eq_true_eq] at hct
    refine ⟨text.getD pr.1 ' ', ?_, hct.2⟩
    rw [← hs, he]
    exact substringOf_single text pr.1 hct.1
  · rw [if_neg hc] at hm
    exact Option.noConfusion hm

/-- C5 counterexample: `extract_identifiers("_._")` returns the namespace
full string `"_._"`, which is not a single uppercase letter and fails the
validity filter (it is composed solely of separators and dots and contains
no letter): the namespace full string is inserted without the filter. -/
theorem extract_validity_counterexample :
    ("_._".data) ∈ extractIdentifiers ("_._".data) ∧
      isValidCandidate ("_._".data) = false ∧ ("_._".data).length ≠ 1 := by
  decide

/-- C5 amended: every string returned by `extract_identifiers` passes the
validity filter, or is a single uppercase letter, or is the unfiltered
namespace full string `ns ++ "." ++ member` of some namespace-pattern match
of the input. -/
theorem extract_validity_amended (text s : PyStr) (h : s ∈ extractIdentifiers text) :
    isValidCandidate s = true ∨ (∃ c, s = [c] ∧ c.isUpper = true) ∨
      ∃ pr ∈ namespacePairs text, s = pr.1 ++ '.' :: pr.2 := by
  unfold extractIdentifiers at h
  by_cases ht : text = []
  · rw [if_pos ht] at h
    exact absurd h (List.not_mem_nil s)
  · rw [if_neg ht] at h
    have h9 := (sortDescBy_perm identifierScore _).mem_iff.mp h
    rcases mem_foldl_addIdent h9 with h8 | h8
    · rcases mem_foldl_addIfValid h8 with h7 | hv
      · rcases mem_foldl_addIfValid h7 with h6 | hv
        · rcases mem_foldl_addIfValid h6 with h5 | hv
          · rcases mem_foldl_addIfValid h5 with h4 | hv
            · rcases mem_foldl_addIfValid h4 with h3 | hv
              · rcases mem_foldl_addIfValid h3 with h2 | hv
                · rcases mem_foldl_nsStep h2 with h1 | hv | hns
                  · rcases mem_foldl_addIfValid h1 with h0 | hv
                    · exact absurd h0 (List.not_mem_nil s)
                    · exact Or.inl hv
                  · exact Or.inl hv
                  · exact Or.inr (Or.inr hns)
                · exact Or.inl hv
              · exact Or.inl hv
            · exact Or.inl hv
          · exact Or.inl hv
        · exact Or.inl hv
      · exact Or.inl hv
    · exact Or.inr (Or.inl (singleUpper_shape h8))

/-- C5 amended witness: "getData" extracted from "getData()" satisfies the
amended disjunction. -/
theorem extract_validity_amended_witness :
    ("getData".data) ∈ extractIdentifiers ("getData()".data) ∧
      (isValidCandidate ("getData".data) = true ∨
        (∃ c, ("getData".data) = [c] ∧ c.isUpper = true) ∨
        ∃ pr ∈ namespacePairs ("getData()".data),
          ("getData".data) = pr.1 ++ '.' :: pr.2) :=
  ⟨by decide, extract_validity_amended _ _ (by decide)⟩

/-- C6 counterexample: on "myVar Myvarx" the extractor returns "myVar"
before "Myvarx", yet the claimed scoring formula rates "myVar" (7.5)
strictly below "Myvarx" (8): the real score has a further +2 bonus for
camelCase/snake_case matches that the claimed formula omits. -/
theorem extract_score_counterexample :
    extractIdentifiers ("myVar Myvarx".data) = [("myVar".data), ("Myvarx".data)] ∧
      specIdentifierScore ("myVar".data) < specIdentifierScore ("Myvarx".data) := by
  decide

/-- C6 amended: the extractor output is sorted descending by the actual
score, and the actual score equals the claimed formula plus an extra +2
exactly when the candidate matches the camelCase or snake_case pattern as a
whole. -/
theorem extract_score_amended :
    (∀ text : PyStr, (extractIdentifiers text).Pairwise
      (fun a b => identifierScore b ≤ identifierScore a)) ∧
      ∀ s : PyStr, identifierScore s = specIdentifierScore s +
        (if (camelMatchAt s 0).isSome || (snakeMatchAt s 0).isSome then 2 else 0) := by
  constructor
  · intro text
    unfold extractIdentifiers
    by_cases ht : text = []
    · rw [if_pos ht]
      exact List.Pairwise.nil
    · rw [if_neg ht]
      exact sortDescBy_sorted identifierScore _
  · intro s
    unfold identifierScore specIdentifierScore
    rw [Rat.mkRat_eq_div, Rat.mkRat_eq_div]
    push_cast
    ring

end Niwa
